import Mathlib

/-!
# simple-malloc: a shallow embedding of `mem_management.cpp`

The allocator keeps its block headers inside the memory it manages, so the
embedding works on a byte-addressed memory.  Addresses are natural numbers,
`NULL` is `0`, and the header layout is the one of an LP64 target
(`unsigned int` is 4 bytes, a pointer is 8 bytes):

| field          | offset | width |
|----------------|--------|-------|
| `size`         | 0      | 4     |
| `available`    | 4      | 4     |
| `next_block`   | 8      | 8     |
| `magic_number` | 16     | 4     |
| (padding)      | 20     | 4     |

so that `sizeof(meta_data) = 24`; multi-byte objects are stored little-endian.

Modelling decisions:
* The operating system is reduced to the program break and a limit up to which
  `sbrk` grants growth.  A state may hold arbitrary bytes above the break; the runs
  `Reach` and `Disciplined` start with zero-filled memory at and above the break, as the
  kernel delivers it.
* Reads and writes through a pointer are total, with one exception: the
  indirection `*flag` in `extend`, whose pointer comes straight from `sbrk`, faults
  when its four bytes do not lie inside the address space.
* Pointer arithmetic is not wrapped; `unsigned int` arithmetic is taken modulo
  `2 ^ 32` where the source can overflow.
* The loop of `find_slot` does not terminate on a cyclic chain; the embedding gives
  it one iteration per address and reports `Fault.diverges` beyond that.
* Diagnostics written to `cout` are not part of the state and are left out.
-/

namespace SimpleMalloc

/-! ## Constants -/

/-- `#define MEM_BUFFER (1024*1024)`. -/
def MEM_BUFFER : Nat := 1024 * 1024

/-- `#define METADATA_SIZE (sizeof(meta_data))`, 24 bytes on LP64. -/
def METADATA_SIZE : Nat := 24

/-- `#define ALIGNMENT_FACTOR 4`. -/
def ALIGNMENT_FACTOR : Nat := 4

/-- `#define MAGIC_NUMBER 0123`: an octal literal, i.e. 83. -/
def MAGIC_NUMBER : Nat := 83

/-- Number of values of an `unsigned int`. -/
def UINT_RANGE : Nat := 2 ^ 32

/-- Number of addresses of a 64-bit pointer. -/
def PTR_RANGE : Nat := 2 ^ 64

/-- The value `(void*)-1` that `sbrk` returns when it refuses a request. -/
def SBRK_FAILED : Nat := PTR_RANGE - 1

/-- Offset of `meta_data::size`. -/
def OFF_SIZE : Nat := 0
/-- Offset of `meta_data::available`. -/
def OFF_AVAILABLE : Nat := 4
/-- Offset of `meta_data::next_block`. -/
def OFF_NEXT : Nat := 8
/-- Offset of `meta_data::magic_number`. -/
def OFF_MAGIC : Nat := 16

/-! ## Byte-addressed memory -/

/-- Memory: the byte stored at every address (read modulo 256). -/
abbrev Mem := Nat → Nat

/-- Little-endian read of `n` bytes starting at address `a`. -/
def loadBytes (m : Mem) (a : Nat) : Nat → Nat
  | 0 => 0
  | n + 1 => m a % 256 + 256 * loadBytes m (a + 1) n

/-- Little-endian write of the low `n` bytes of `v` starting at address `a`. -/
def storeBytes (m : Mem) (a n v : Nat) : Mem :=
  fun x => if a ≤ x ∧ x < a + n then v / 256 ^ (x - a) % 256 else m x

/-- Read of an `unsigned int` object. -/
def load32 (m : Mem) (a : Nat) : Nat := loadBytes m a 4
/-- Write of an `unsigned int` object. -/
def store32 (m : Mem) (a v : Nat) : Mem := storeBytes m a 4 v
/-- Read of a pointer object. -/
def load64 (m : Mem) (a : Nat) : Nat := loadBytes m a 8
/-- Write of a pointer object. -/
def store64 (m : Mem) (a v : Nat) : Mem := storeBytes m a 8 v

/-! ## Program state -/

/-- The globals of the program together with the memory and the operating
system's view of the data segment. -/
structure State where
  /-- Contents of memory. -/
  mem : Mem
  /-- Current program break (`sbrk(0)`). -/
  brk : Nat
  /-- Highest break the operating system is willing to grant. -/
  limit : Nat
  /-- Global `heap_start`. -/
  heap_start : Nat
  /-- Global `heap_last_block`. -/
  heap_last_block : Nat

/-- Ways in which a call can fail to return. -/
inductive Fault where
  /-- An access through a pointer that designates no object. -/
  | segfault
  /-- The loop of `find_slot` never leaves the chain. -/
  | diverges
  deriving DecidableEq, Repr

/-- The state at program start: both globals are `NULL`. -/
def initial (m : Mem) (brk limit : Nat) : State :=
  { mem := m, brk := brk, limit := limit, heap_start := 0, heap_last_block := 0 }

/-- System call `sbrk(inc)` for `inc > 0`: when the new break stays inside the limit
and the address space the break moves and the old break is returned, otherwise
`(void*)-1` is returned and nothing changes. -/
def sbrk (σ : State) (inc : Nat) : Nat × State :=
  if σ.brk + inc ≤ σ.limit ∧ σ.brk + inc < PTR_RANGE then
    (σ.brk, { σ with brk := σ.brk + inc })
  else
    (SBRK_FAILED, σ)

/-- Indirection `*flag` through an `int*`: the four bytes must lie inside the
address space. -/
def deref32 (m : Mem) (a : Nat) : Except Fault Nat :=
  if a + 4 ≤ PTR_RANGE then .ok (load32 m a) else .error Fault.segfault

/-! ## The allocator -/

/-- Function `align_size` on `unsigned int`. -/
def align_size (size : Nat) : Nat :=
  if size % ALIGNMENT_FACTOR ≠ 0 then
    (size + ALIGNMENT_FACTOR - size % ALIGNMENT_FACTOR) % UINT_RANGE
  else size

/-- The `while(iter)` loop of `find_slot`, bounded by `fuel` iterations; `none`
when the bound is hit. -/
def find_slot_loop : Nat → Mem → Nat → Nat → Option (Nat × Mem)
  | 0, _, _, _ => none
  | fuel + 1, m, iter, size =>
    if iter = 0 then some (0, m)
    else if load32 m (iter + OFF_AVAILABLE) ≠ 0 ∧ load32 m (iter + OFF_SIZE) ≥ size then
      some (iter, store32 m (iter + OFF_AVAILABLE) 0)
    else find_slot_loop fuel m (load64 m (iter + OFF_NEXT)) size

/-- Function `find_slot`.  The loop writes nothing before it returns, so a walk that
has not ended after `PTR_RANGE` steps has visited some header twice and never ends. -/
def find_slot (σ : State) (size : Nat) : Except Fault (Nat × State) :=
  match find_slot_loop PTR_RANGE σ.mem σ.heap_start size with
  | none => .error Fault.diverges
  | some (slot, m) => .ok (slot, { σ with mem := m })

/-- Function `divide_slot`. -/
def divide_slot (σ : State) (slot size : Nat) : State :=
  let new_slot := slot + METADATA_SIZE + size
  let m1 := store32 σ.mem (new_slot + OFF_SIZE)
    ((load32 σ.mem (slot + OFF_SIZE) + 2 * UINT_RANGE - size - METADATA_SIZE) % UINT_RANGE)
  let m2 := store32 m1 (new_slot + OFF_AVAILABLE) 1
  let m3 := store64 m2 (new_slot + OFF_NEXT) (load64 m2 (slot + OFF_NEXT))
  let m4 := store32 m3 (new_slot + OFF_MAGIC) MAGIC_NUMBER
  let m5 := store32 m4 (slot + OFF_SIZE) size
  let m6 := store64 m5 (slot + OFF_NEXT) new_slot
  { σ with mem := m6 }

/-- Function `extend`. -/
def extend (σ : State) (size : Nat) : Except Fault (Nat × State) :=
  let new_block := σ.brk
  if (new_block : Int) - (σ.heap_start : Int) > (MEM_BUFFER : Int) then .ok (0, σ)
  else
    let (flag, σ1) := sbrk σ (size + METADATA_SIZE)
    match deref32 σ1.mem flag with
    | .error e => .error e
    | .ok v =>
      if v = UINT_RANGE - 1 then .ok (0, σ1)
      else
        let m1 := store32 σ1.mem (new_block + OFF_SIZE) size
        let m2 := store32 m1 (new_block + OFF_AVAILABLE) 0
        let m3 := store64 m2 (new_block + OFF_NEXT) 0
        let m4 := store32 m3 (new_block + OFF_MAGIC) MAGIC_NUMBER
        let m5 := if σ1.heap_last_block ≠ 0 then
            store64 m4 (σ1.heap_last_block + OFF_NEXT) new_block
          else m4
        .ok (new_block, { σ1 with mem := m5, heap_last_block := new_block })

/-- Function `get_metadata`.  Data pointers are at least `METADATA_SIZE`, the
subtraction is the one of natural numbers. -/
def get_metadata (ptr : Nat) : Nat := ptr - METADATA_SIZE

/-- Function `xyzmalloc`; a returned pointer `0` is `NULL`. -/
def xyzmalloc (σ : State) (size : Nat) : Except Fault (Nat × State) :=
  let size := align_size size
  let found : Except Fault (Nat × State) :=
    if σ.heap_start ≠ 0 then
      match find_slot σ size with
      | .error e => .error e
      | .ok (slot, σ1) =>
        if slot ≠ 0 then
          if load32 σ1.mem (slot + OFF_SIZE) > size + METADATA_SIZE then
            .ok (slot, divide_slot σ1 slot size)
          else .ok (slot, σ1)
        else extend σ1 size
    else
      extend { σ with heap_start := σ.brk } size
  match found with
  | .error e => .error e
  | .ok (slot, σ2) =>
    if slot = 0 then .ok (0, σ2) else .ok (slot + METADATA_SIZE, σ2)

/-- Function `xyzfree`. -/
def xyzfree (σ : State) (ptr : Nat) : State :=
  if σ.heap_start = 0 then σ
  else if ptr ≥ σ.heap_start ∧ ptr < σ.brk then
    let ptr_metadata := get_metadata ptr
    if load32 σ.mem (ptr_metadata + OFF_MAGIC) = MAGIC_NUMBER then
      { σ with mem := store32 σ.mem (ptr_metadata + OFF_AVAILABLE) 1 }
    else σ
  else σ


/-! ## Vocabulary for stating properties -/

/-- A memory that holds zero everywhere. -/
def zeroMem : Mem := fun _ => 0

/-- Field `size` of the header at address `h`. -/
def hdr_size (m : Mem) (h : Nat) : Nat := load32 m (h + OFF_SIZE)
/-- Field `available` of the header at address `h`. -/
def hdr_available (m : Mem) (h : Nat) : Nat := load32 m (h + OFF_AVAILABLE)
/-- Field `next_block` of the header at address `h`. -/
def hdr_next (m : Mem) (h : Nat) : Nat := load64 m (h + OFF_NEXT)
/-- Field `magic_number` of the header at address `h`. -/
def hdr_magic (m : Mem) (h : Nat) : Nat := load32 m (h + OFF_MAGIC)

/-- The list `l` is the sequence of headers met when following `next_block` from
address `a` until `NULL`. -/
def Chain (m : Mem) : Nat → List Nat → Prop
  | a, [] => a = 0
  | a, h :: t => a = h ∧ h ≠ 0 ∧ Chain m (load64 m (h + OFF_NEXT)) t

/-- A store of an `unsigned int` performed by the caller of the allocator. -/
def callerStore32 (σ : State) (a v : Nat) : State :=
  { σ with mem := store32 σ.mem a v }

/-- Membership in a chain can be checked by following the links. -/
instance instDecidableChain (m : Mem) : (a : Nat) → (l : List Nat) → Decidable (Chain m a l)
  | a, [] => inferInstanceAs (Decidable (a = 0))
  | a, h :: t =>
    haveI : Decidable (Chain m (load64 m (h + OFF_NEXT)) t) := instDecidableChain m _ t
    inferInstanceAs (Decidable (a = h ∧ h ≠ 0 ∧ Chain m (load64 m (h + OFF_NEXT)) t))

/-! ## Runs of the interface -/

/-- States reached from program start, with zero-filled memory at and above the break as
the kernel delivers it, by calls of `xyzmalloc` and by calls of `xyzfree` on pointers that
`xyzmalloc` returned before.  The list holds the pointers returned so far. -/
inductive Reach : State → List Nat → Prop
  | start (m : Mem) (b lim : Nat) (hb : 0 < b) (hz : ∀ x, b ≤ x → m x = 0) :
      Reach (initial m b lim) []
  | malloc (σ : State) (ret : List Nat) (s p : Nat) (σ2 : State) (hr : Reach σ ret)
      (hs : s < UINT_RANGE) (hm : xyzmalloc σ s = .ok (p, σ2)) :
      Reach σ2 (if p = 0 then ret else p :: ret)
  | free (σ : State) (ret : List Nat) (p : Nat) (hr : Reach σ ret) (hp : p ∈ ret) :
      Reach (xyzfree σ p) ret

/-- Disciplined runs: as `Reach`, but `xyzfree` is only called on a pointer that is live,
i.e. returned by `xyzmalloc` and not released since.  The list holds the live pointers. -/
inductive Disciplined : State → List Nat → Prop
  | start (m : Mem) (b lim : Nat) (hb : 0 < b) (hz : ∀ x, b ≤ x → m x = 0) :
      Disciplined (initial m b lim) []
  | malloc (σ : State) (live : List Nat) (s p : Nat) (σ2 : State) (hr : Disciplined σ live)
      (hs : s < UINT_RANGE) (hm : xyzmalloc σ s = .ok (p, σ2)) :
      Disciplined σ2 (if p = 0 then live else p :: live)
  | free (σ : State) (live : List Nat) (p : Nat) (hr : Disciplined σ live) (hp : p ∈ live) :
      Disciplined (xyzfree σ p) (live.filter (fun q => q ≠ p))

/-- Invariant of an initialised arena.  The set `H` holds the addresses of all headers
written so far, whether still linked into the chain or not. -/
structure Inv (σ : State) (H : Nat → Prop) : Prop where
  /-- The arena starts at a non-null address. -/
  start_pos : 0 < σ.heap_start
  /-- The break is an address. -/
  brk_lt : σ.brk < PTR_RANGE
  /-- The first header sits at `heap_start`. -/
  start_mem : H σ.heap_start
  /-- Global `heap_last_block` designates a header. -/
  last_mem : H σ.heap_last_block
  /-- Every block lies inside the arena, carries the tag and has an aligned size. -/
  block : ∀ h, H h → σ.heap_start ≤ h ∧ h + METADATA_SIZE + hdr_size σ.mem h ≤ σ.brk ∧
    hdr_magic σ.mem h = MAGIC_NUMBER ∧ hdr_size σ.mem h % ALIGNMENT_FACTOR = 0
  /-- Two different blocks do not overlap. -/
  disjoint : ∀ h k, H h → H k → h ≠ k →
    h + METADATA_SIZE + hdr_size σ.mem h ≤ k ∨ k + METADATA_SIZE + hdr_size σ.mem k ≤ h
  /-- A link is `NULL` or leads to a header that begins after the end of the block. -/
  link : ∀ h, H h → hdr_next σ.mem h = 0 ∨
    (H (hdr_next σ.mem h) ∧ h + METADATA_SIZE + hdr_size σ.mem h ≤ hdr_next σ.mem h)
  /-- Memory at and above the break has not been written. -/
  fresh : ∀ x, σ.brk ≤ x → σ.mem x = 0

/-! ## Lemmas and theorems -/

theorem loadBytes_congr (m m2 : Mem) (a n : Nat) (h : ∀ x, a ≤ x → x < a + n → m x = m2 x) :
    loadBytes m a n = loadBytes m2 a n := by
  induction n generalizing a with
  | zero => rfl
  | succ k ih =>
    simp only [loadBytes]
    rw [h a (Nat.le_refl a) (by omega), ih (a + 1) (fun x h1 h2 => h x (by omega) (by omega))]

theorem loadBytes_storeBytes_disj (m : Mem) (a n v b k : Nat) (h : b + k ≤ a ∨ a + n ≤ b) :
    loadBytes (storeBytes m a n v) b k = loadBytes m b k := by
  apply loadBytes_congr
  intro x h1 h2
  simp only [storeBytes]
  rw [if_neg]
  omega

theorem loadBytes_storeBytes_within (m : Mem) (a n v b k : Nat) (h1 : a ≤ b) (h2 : b + k ≤ a + n) :
    loadBytes (storeBytes m a n v) b k = v / 256 ^ (b - a) % 256 ^ k := by
  induction k generalizing b with
  | zero => simp [loadBytes, Nat.mod_one]
  | succ j ih =>
    simp only [loadBytes]
    rw [ih (b + 1) (by omega) (by omega)]
    have hb : storeBytes m a n v b = v / 256 ^ (b - a) % 256 := by
      simp only [storeBytes]
      rw [if_pos]
      omega
    rw [hb, Nat.mod_mod]
    have e : b + 1 - a = (b - a) + 1 := by omega
    rw [e, Nat.pow_succ, ← Nat.div_div_eq_div_mul, Nat.pow_succ]
    generalize v / 256 ^ (b - a) = w
    rw [Nat.mul_comm (256 ^ j) 256, Nat.mod_mul]

theorem loadBytes_lt (m : Mem) (a n : Nat) : loadBytes m a n < 256 ^ n := by
  induction n generalizing a with
  | zero => simp [loadBytes]
  | succ k ih =>
    simp only [loadBytes]
    have := ih (a + 1)
    have h2 : m a % 256 < 256 := Nat.mod_lt _ (by decide)
    rw [Nat.pow_succ]
    omega

theorem load32_store32_same (m : Mem) (a v : Nat) (h : v < UINT_RANGE) :
    load32 (store32 m a v) a = v := by
  unfold load32 store32
  rw [loadBytes_storeBytes_within m a 4 v a 4 (Nat.le_refl a) (Nat.le_refl _)]
  simp only [Nat.sub_self, Nat.pow_zero, Nat.div_one]
  exact Nat.mod_eq_of_lt h

theorem load64_store64_same (m : Mem) (a v : Nat) (h : v < PTR_RANGE) :
    load64 (store64 m a v) a = v := by
  unfold load64 store64
  rw [loadBytes_storeBytes_within m a 8 v a 8 (Nat.le_refl a) (Nat.le_refl _)]
  simp only [Nat.sub_self, Nat.pow_zero, Nat.div_one]
  exact Nat.mod_eq_of_lt h

theorem load32_store32_disj (m : Mem) (a v b : Nat) (h : b + 4 ≤ a ∨ a + 4 ≤ b) :
    load32 (store32 m a v) b = load32 m b :=
  loadBytes_storeBytes_disj m a 4 v b 4 h

theorem load32_store64_disj (m : Mem) (a v b : Nat) (h : b + 4 ≤ a ∨ a + 8 ≤ b) :
    load32 (store64 m a v) b = load32 m b :=
  loadBytes_storeBytes_disj m a 8 v b 4 h

theorem load64_store32_disj (m : Mem) (a v b : Nat) (h : b + 8 ≤ a ∨ a + 4 ≤ b) :
    load64 (store32 m a v) b = load64 m b :=
  loadBytes_storeBytes_disj m a 4 v b 8 h

theorem load64_store64_disj (m : Mem) (a v b : Nat) (h : b + 8 ≤ a ∨ a + 8 ≤ b) :
    load64 (store64 m a v) b = load64 m b :=
  loadBytes_storeBytes_disj m a 8 v b 8 h

theorem load32_lt (m : Mem) (a : Nat) : load32 m a < UINT_RANGE := loadBytes_lt m a 4

theorem load64_lt (m : Mem) (a : Nat) : load64 m a < PTR_RANGE := loadBytes_lt m a 8


/-- Effect of a successful `extend` on memory and globals. -/
theorem extend_ok (σ σ' : State) (size p : Nat) (h : extend σ size = .ok (p, σ')) (hp : p ≠ 0) :
    p = σ.brk ∧ σ.brk + (size + METADATA_SIZE) ≤ σ.limit ∧ σ.brk + (size + METADATA_SIZE) < PTR_RANGE ∧
    ¬ ((σ.brk : Int) - (σ.heap_start : Int) > (MEM_BUFFER : Int)) ∧
    σ' = { mem :=
            (if σ.heap_last_block ≠ 0 then
              store64 (store32 (store64 (store32 (store32 σ.mem (σ.brk + OFF_SIZE) size)
                (σ.brk + OFF_AVAILABLE) 0) (σ.brk + OFF_NEXT) 0) (σ.brk + OFF_MAGIC) MAGIC_NUMBER)
                (σ.heap_last_block + OFF_NEXT) σ.brk
            else
              store32 (store64 (store32 (store32 σ.mem (σ.brk + OFF_SIZE) size)
                (σ.brk + OFF_AVAILABLE) 0) (σ.brk + OFF_NEXT) 0) (σ.brk + OFF_MAGIC) MAGIC_NUMBER),
           brk := σ.brk + (size + METADATA_SIZE), limit := σ.limit,
           heap_start := σ.heap_start, heap_last_block := σ.brk } := by
  unfold extend at h
  by_cases hc : (σ.brk : Int) - (σ.heap_start : Int) > (MEM_BUFFER : Int)
  · rw [if_pos hc] at h
    simp only [Except.ok.injEq, Prod.mk.injEq] at h
    exact absurd h.1.symm hp
  · rw [if_neg hc] at h
    unfold sbrk at h
    by_cases hg : σ.brk + (size + METADATA_SIZE) ≤ σ.limit ∧ σ.brk + (size + METADATA_SIZE) < PTR_RANGE
    · rw [if_pos hg] at h
      simp only [deref32] at h
      have hb : σ.brk + 4 ≤ PTR_RANGE := by
        have := hg.2
        simp only [METADATA_SIZE] at this
        omega
      rw [if_pos hb] at h
      simp only at h
      split at h
      · simp only [Except.ok.injEq, Prod.mk.injEq] at h
        exact absurd h.1.symm hp
      · simp only [Except.ok.injEq, Prod.mk.injEq] at h
        refine ⟨h.1.symm, hg.1, hg.2, hc, ?_⟩
        rw [← h.2]
    · rw [if_neg hg] at h
      simp [deref32, SBRK_FAILED, PTR_RANGE] at h

theorem align_size_lt (s : Nat) (h : s < UINT_RANGE) : align_size s < UINT_RANGE := by
  unfold align_size
  split
  · exact Nat.mod_lt _ (by decide)
  · exact h

theorem align_size_mod (s : Nat) : align_size s % 4 = 0 := by
  unfold align_size
  simp only [ALIGNMENT_FACTOR, UINT_RANGE] at *
  split <;> omega

/-- First allocation on an arena whose `heap_start` is `NULL`. -/
theorem xyzmalloc_fresh (σ σ' : State) (s p : Nat) (h0 : σ.heap_start = 0) (hl : σ.heap_last_block = 0)
    (h : xyzmalloc σ s = .ok (p, σ')) (hp : p ≠ 0) :
    p = σ.brk + METADATA_SIZE ∧ σ.brk + (align_size s + METADATA_SIZE) ≤ σ.limit ∧
    σ.brk + (align_size s + METADATA_SIZE) < PTR_RANGE ∧
    σ' = { mem := store32 (store64 (store32 (store32 σ.mem (σ.brk + OFF_SIZE) (align_size s))
                (σ.brk + OFF_AVAILABLE) 0) (σ.brk + OFF_NEXT) 0) (σ.brk + OFF_MAGIC) MAGIC_NUMBER,
           brk := σ.brk + (align_size s + METADATA_SIZE), limit := σ.limit,
           heap_start := σ.brk, heap_last_block := σ.brk } := by
  unfold xyzmalloc at h
  simp only [h0, ne_eq, not_true_eq_false, if_false] at h
  cases he : extend { σ with heap_start := σ.brk } (align_size s) with
  | error e => rw [he] at h; simp at h
  | ok r =>
    obtain ⟨slot, σ2⟩ := r
    rw [he] at h
    simp only at h
    by_cases hs : slot = 0
    · rw [if_pos hs] at h
      simp only [Except.ok.injEq, Prod.mk.injEq] at h
      exact absurd h.1.symm hp
    · rw [if_neg hs] at h
      simp only [Except.ok.injEq, Prod.mk.injEq] at h
      obtain ⟨e1, e2, e3, _, e5⟩ := extend_ok _ _ _ _ he hs
      simp only [hl, ne_eq, not_true_eq_false, if_false] at e5
      subst e1
      refine ⟨h.1.symm, e2, e3, ?_⟩
      rw [← h.2, e5]

theorem load32_store32_eq (m : Mem) (a v b : Nat) (h : a = b) (hv : v < 4294967296) :
    load32 (store32 m a v) b = v := by
  subst h; exact load32_store32_same m a v hv

theorem load64_store64_eq (m : Mem) (a v b : Nat) (h : a = b) (hv : v < 18446744073709551616) :
    load64 (store64 m a v) b = v := by
  subst h; exact load64_store64_same m a v hv

theorem find_slot_loop_succ (fuel : Nat) (m : Mem) (iter size : Nat) :
    find_slot_loop (fuel + 1) m iter size =
      if iter = 0 then some (0, m)
      else if load32 m (iter + OFF_AVAILABLE) ≠ 0 ∧ load32 m (iter + OFF_SIZE) ≥ size then
        some (iter, store32 m (iter + OFF_AVAILABLE) 0)
      else find_slot_loop fuel m (load64 m (iter + OFF_NEXT)) size := rfl

/-- On a finite chain the loop of `find_slot` returns the first header that fits, or
`NULL` when none does, as soon as the fuel exceeds the length of the chain. -/
theorem find_slot_loop_chain (m : Mem) (size : Nat) (l : List Nat) :
    ∀ (a fuel : Nat), Chain m a l → l.length < fuel →
      find_slot_loop fuel m a size =
        match l.find? (fun h => decide (hdr_available m h ≠ 0 ∧ hdr_size m h ≥ size)) with
        | some h => some (h, store32 m (h + OFF_AVAILABLE) 0)
        | none => some (0, m) := by
  induction l with
  | nil =>
    intro a fuel hc hf
    obtain ⟨k, rfl⟩ : ∃ k, fuel = k + 1 := ⟨fuel - 1, by simp at hf; omega⟩
    simp only [Chain] at hc
    simp [find_slot_loop_succ, hc]
  | cons h t ih =>
    intro a fuel hc hf
    obtain ⟨k, rfl⟩ : ∃ k, fuel = k + 1 := ⟨fuel - 1, by simp at hf; omega⟩
    simp only [Chain] at hc
    obtain ⟨rfl, hne, hc2⟩ := hc
    rw [find_slot_loop_succ, if_neg hne]
    by_cases hfit : load32 m (a + OFF_AVAILABLE) ≠ 0 ∧ load32 m (a + OFF_SIZE) ≥ size
    · rw [if_pos hfit]
      have : decide (hdr_available m a ≠ 0 ∧ hdr_size m a ≥ size) = true := by
        simpa [hdr_available, hdr_size] using hfit
      simp only [List.find?, this]
    · rw [if_neg hfit]
      have : decide (hdr_available m a ≠ 0 ∧ hdr_size m a ≥ size) = false := by
        simpa [hdr_available, hdr_size] using hfit
      simp only [List.find?, this]
      exact ih _ k hc2 (by simp at hf; omega)

/-- Effect of `xyzfree` on a pointer that passes both checks. -/
theorem xyzfree_accepted (σ : State) (p : Nat) (h0 : σ.heap_start ≠ 0) (h1 : σ.heap_start ≤ p)
    (h2 : p < σ.brk) (hm : hdr_magic σ.mem (get_metadata p) = MAGIC_NUMBER) :
    xyzfree σ p = { σ with mem := store32 σ.mem (get_metadata p + OFF_AVAILABLE) 1 } := by
  unfold xyzfree
  rw [if_neg h0, if_pos ⟨h1, h2⟩]
  simp only [hdr_magic] at hm
  simp only [hm, if_true]

/-- Reuse of a free block that is large enough to be divided. -/
theorem xyzmalloc_reuse_split (σ σ1 : State) (s slot : Nat) (h0 : σ.heap_start ≠ 0)
    (hf : find_slot σ (align_size s) = .ok (slot, σ1)) (hs : slot ≠ 0)
    (hbig : hdr_size σ1.mem slot > align_size s + METADATA_SIZE) :
    xyzmalloc σ s = .ok (slot + METADATA_SIZE, divide_slot σ1 slot (align_size s)) := by
  unfold xyzmalloc
  simp only [hdr_size] at hbig
  simp only [h0, ne_eq, not_false_eq_true, if_true, hf, hs, hbig, if_false]

/-- Reuse of a free block that is too small to be divided. -/
theorem xyzmalloc_reuse_whole (σ σ1 : State) (s slot : Nat) (h0 : σ.heap_start ≠ 0)
    (hf : find_slot σ (align_size s) = .ok (slot, σ1)) (hs : slot ≠ 0)
    (hsmall : ¬ hdr_size σ1.mem slot > align_size s + METADATA_SIZE) :
    xyzmalloc σ s = .ok (slot + METADATA_SIZE, σ1) := by
  unfold xyzmalloc
  simp only [hdr_size] at hsmall
  simp only [h0, ne_eq, not_false_eq_true, if_true, hf, hs, hsmall, if_false]

/-- Function `find_slot` on a finite chain. -/
theorem find_slot_chain (σ : State) (size : Nat) (l : List Nat) (hc : Chain σ.mem σ.heap_start l)
    (hlen : l.length < PTR_RANGE) :
    find_slot σ size =
      match l.find? (fun h => decide (hdr_available σ.mem h ≠ 0 ∧ hdr_size σ.mem h ≥ size)) with
      | some h => .ok (h, { σ with mem := store32 σ.mem (h + OFF_AVAILABLE) 0 })
      | none => .ok (0, σ) := by
  unfold find_slot
  rw [find_slot_loop_chain σ.mem size l _ _ hc hlen]
  cases l.find? (fun h => decide (hdr_available σ.mem h ≠ 0 ∧ hdr_size σ.mem h ≥ size)) <;> rfl

/-- Growth of an initialised arena in which no block fits. -/
theorem xyzmalloc_grow (σ σ1 σ' : State) (s p : Nat) (h0 : σ.heap_start ≠ 0)
    (hf : find_slot σ (align_size s) = .ok (0, σ1))
    (h : xyzmalloc σ s = .ok (p, σ')) (hp : p ≠ 0) :
    p = σ1.brk + METADATA_SIZE ∧ extend σ1 (align_size s) = .ok (σ1.brk, σ') ∧ σ1.brk ≠ 0 := by
  unfold xyzmalloc at h
  simp only [h0, ne_eq, not_false_eq_true, if_true, hf, not_true_eq_false, if_false] at h
  cases he : extend σ1 (align_size s) with
  | error e => rw [he] at h; simp at h
  | ok r =>
    obtain ⟨slot, σ2⟩ := r
    rw [he] at h
    simp only at h
    by_cases hs : slot = 0
    · rw [if_pos hs] at h
      simp only [Except.ok.injEq, Prod.mk.injEq] at h
      exact absurd h.1.symm hp
    · rw [if_neg hs] at h
      simp only [Except.ok.injEq, Prod.mk.injEq] at h
      obtain ⟨e1, -⟩ := extend_ok _ _ _ _ he hs
      subst e1
      exact ⟨h.1.symm, by rw [h.2], hs⟩

theorem align_size_le_of_le (d a : Nat) (h : d ≤ a) (ha : a % 4 = 0) (hlt : a < UINT_RANGE) :
    align_size d ≤ a := by
  unfold align_size
  simp only [ALIGNMENT_FACTOR, UINT_RANGE] at *
  split <;> omega

theorem chain_ne_zero (m : Mem) (l : List Nat) : ∀ a, Chain m a l → ∀ h ∈ l, h ≠ 0 := by
  induction l with
  | nil => intro a _ h hh; simp at hh
  | cons x t ih =>
    intro a hc h hh
    simp only [Chain] at hc
    rcases List.mem_cons.mp hh with rfl | ht
    · exact hc.2.1
    · exact ih _ hc.2.2 h ht

/-- Whenever some block of the chain fits, `xyzmalloc` returns the data pointer of the
first such block and leaves the break and the globals alone. -/
theorem xyzmalloc_reuse (σ : State) (s : Nat) (l : List Nat) (h : Nat) (h0 : σ.heap_start ≠ 0)
    (hc : Chain σ.mem σ.heap_start l) (hlen : l.length < PTR_RANGE)
    (hfind : l.find? (fun h => decide (hdr_available σ.mem h ≠ 0 ∧ hdr_size σ.mem h ≥ align_size s))
      = some h) :
    ∃ σ', xyzmalloc σ s = .ok (h + METADATA_SIZE, σ') ∧ σ'.brk = σ.brk ∧
      σ'.heap_start = σ.heap_start ∧ σ'.heap_last_block = σ.heap_last_block ∧ σ'.limit = σ.limit := by
  have hne : h ≠ 0 := chain_ne_zero _ _ _ hc h (List.mem_of_find?_eq_some hfind)
  have hf := find_slot_chain σ (align_size s) l hc hlen
  rw [hfind] at hf
  simp only at hf
  by_cases hbig : hdr_size (store32 σ.mem (h + OFF_AVAILABLE) 0) h > align_size s + METADATA_SIZE
  · exact ⟨_, xyzmalloc_reuse_split σ _ s h h0 hf hne hbig, rfl, rfl, rfl, rfl⟩
  · exact ⟨_, xyzmalloc_reuse_whole σ _ s h h0 hf hne hbig, rfl, rfl, rfl, rfl⟩

theorem chain_unique (m : Mem) (l : List Nat) :
    ∀ (a : Nat) (l2 : List Nat), Chain m a l → Chain m a l2 → l = l2 := by
  induction l with
  | nil =>
    intro a l2 h1 h2
    cases l2 with
    | nil => rfl
    | cons x t =>
      simp only [Chain] at h1 h2
      exact absurd (h2.1 ▸ h1) h2.2.1
  | cons h t ih =>
    intro a l2 h1 h2
    cases l2 with
    | nil =>
      simp only [Chain] at h1 h2
      exact absurd (h1.1 ▸ h2) h1.2.1
    | cons x t2 =>
      simp only [Chain] at h1 h2
      obtain ⟨e1, _, c1⟩ := h1
      obtain ⟨e2, _, c2⟩ := h2
      have hx : h = x := e1.symm.trans e2
      subst hx
      rw [ih _ t2 c1 c2]

theorem chain_suffix (m : Mem) (l1 : List Nat) (x : Nat) (l2 : List Nat) :
    ∀ a, Chain m a (l1 ++ x :: l2) → Chain m x (x :: l2) := by
  induction l1 with
  | nil =>
    intro a h
    simp only [List.nil_append, Chain] at h
    exact ⟨rfl, h.2.1, h.2.2⟩
  | cons y t ih =>
    intro a h
    simp only [List.cons_append, Chain] at h
    exact ih _ h.2.2

theorem chain_nodup (m : Mem) (l : List Nat) : ∀ a, Chain m a l → l.Nodup := by
  induction l with
  | nil => intro _ _; exact List.nodup_nil
  | cons h t ih =>
    intro a hc
    have hc0 := hc
    simp only [Chain] at hc
    obtain ⟨rfl, hne, hct⟩ := hc
    refine List.nodup_cons.mpr ⟨?_, ih _ hct⟩
    intro hmem
    obtain ⟨t1, t2, rfl⟩ := List.append_of_mem hmem
    have hsuf := chain_suffix m t1 a t2 _ hct
    have := chain_unique m _ _ _ hc0 hsuf
    have hl := congrArg List.length this
    simp at hl
    omega

theorem chain_lt (m : Mem) (l : List Nat) :
    ∀ a, a < PTR_RANGE → Chain m a l → ∀ h ∈ l, h < PTR_RANGE := by
  induction l with
  | nil => intro a _ _ h hh; simp at hh
  | cons x t ih =>
    intro a ha hc h hh
    simp only [Chain] at hc
    rcases List.mem_cons.mp hh with rfl | ht
    · exact hc.1 ▸ ha
    · exact ih _ (load64_lt m _) hc.2.2 h ht

/-- A chain of headers cannot be longer than the address space: every header sits at
its own non-null address. -/
theorem chain_length_lt (m : Mem) (a : Nat) (l : List Nat) (ha : a < PTR_RANGE)
    (hc : Chain m a l) : l.length < PTR_RANGE := by
  have hnd := chain_nodup m l a hc
  have hsub : l.toFinset ⊆ Finset.Ico 1 PTR_RANGE := by
    intro x hx
    rw [List.mem_toFinset] at hx
    rw [Finset.mem_Ico]
    exact ⟨Nat.pos_of_ne_zero (chain_ne_zero m l a hc x hx), chain_lt m l a ha hc x hx⟩
  have hcard := Finset.card_le_card hsub
  rw [List.toFinset_card_of_nodup hnd, Nat.card_Ico] at hcard
  have : 0 < PTR_RANGE := by decide
  omega

theorem storeBytes_idem (m : Mem) (a n v : Nat) :
    storeBytes (storeBytes m a n v) a n v = storeBytes m a n v := by
  funext x
  simp only [storeBytes]
  split <;> rfl

/-- Function `xyzfree` touches neither the break nor the globals, and in memory at most
the four bytes of the `available` field it addresses. -/
theorem xyzfree_frame (σ : State) (p : Nat) :
    (xyzfree σ p).brk = σ.brk ∧ (xyzfree σ p).limit = σ.limit ∧
    (xyzfree σ p).heap_start = σ.heap_start ∧
    (xyzfree σ p).heap_last_block = σ.heap_last_block ∧
    ∀ x, (x < get_metadata p + OFF_AVAILABLE ∨ get_metadata p + OFF_AVAILABLE + 4 ≤ x) →
      (xyzfree σ p).mem x = σ.mem x := by
  by_cases hacc : σ.heap_start ≠ 0 ∧ (p ≥ σ.heap_start ∧ p < σ.brk) ∧
      hdr_magic σ.mem (get_metadata p) = MAGIC_NUMBER
  · rw [xyzfree_accepted σ p hacc.1 hacc.2.1.1 hacc.2.1.2 hacc.2.2]
    refine ⟨rfl, rfl, rfl, rfl, ?_⟩
    intro x hx
    simp only [store32, storeBytes]
    rw [if_neg]
    omega
  · have e : xyzfree σ p = σ := by
      unfold xyzfree
      simp only [hdr_magic] at hacc
      by_cases h0 : σ.heap_start = 0
      · rw [if_pos h0]
      · rw [if_neg h0]
        by_cases hr : p ≥ σ.heap_start ∧ p < σ.brk
        · rw [if_pos hr]
          have hm : ¬ load32 σ.mem (get_metadata p + OFF_MAGIC) = MAGIC_NUMBER :=
            fun hm => hacc ⟨h0, hr, hm⟩
          simp only [hm, if_false]
        · rw [if_neg hr]
    rw [e]
    exact ⟨rfl, rfl, rfl, rfl, fun _ _ => rfl⟩

/-- An accepted release sets the flag and leaves the other three fields of that header. -/
theorem xyzfree_accepted_fields (σ : State) (p : Nat) (h0 : σ.heap_start ≠ 0)
    (h1 : σ.heap_start ≤ p) (h2 : p < σ.brk)
    (hm : hdr_magic σ.mem (get_metadata p) = MAGIC_NUMBER) :
    hdr_available (xyzfree σ p).mem (get_metadata p) = 1 ∧
    hdr_size (xyzfree σ p).mem (get_metadata p) = hdr_size σ.mem (get_metadata p) ∧
    hdr_next (xyzfree σ p).mem (get_metadata p) = hdr_next σ.mem (get_metadata p) ∧
    hdr_magic (xyzfree σ p).mem (get_metadata p) = MAGIC_NUMBER := by
  rw [xyzfree_accepted σ p h0 h1 h2 hm]
  simp only [hdr_magic, OFF_MAGIC] at hm
  simp (disch := omega) only [hdr_available, hdr_size, hdr_next, hdr_magic, OFF_SIZE, OFF_AVAILABLE,
    OFF_NEXT, OFF_MAGIC, Nat.add_zero, load32_store32_eq, load32_store32_disj, load64_store32_disj, hm,
    and_self]

/-- Releasing the same pointer twice gives the state of a single release. -/
theorem xyzfree_idempotent (σ : State) (p : Nat) : xyzfree (xyzfree σ p) p = xyzfree σ p := by
  by_cases h0 : σ.heap_start = 0
  · have e : xyzfree σ p = σ := by unfold xyzfree; rw [if_pos h0]
    rw [e, e]
  · by_cases hr : p ≥ σ.heap_start ∧ p < σ.brk
    · by_cases hm : hdr_magic σ.mem (get_metadata p) = MAGIC_NUMBER
      · have e := xyzfree_accepted σ p h0 hr.1 hr.2 hm
        rw [e]
        have hm2 : hdr_magic (store32 σ.mem (get_metadata p + OFF_AVAILABLE) 1) (get_metadata p)
            = MAGIC_NUMBER := by
          simp only [hdr_magic, OFF_MAGIC, OFF_AVAILABLE] at hm ⊢
          rw [load32_store32_disj _ _ _ _ (by omega)]
          exact hm
        rw [xyzfree_accepted { σ with mem := store32 σ.mem (get_metadata p + OFF_AVAILABLE) 1 } p h0 hr.1 hr.2
          hm2]
        simp only [store32, storeBytes_idem]
      · have e : xyzfree σ p = σ := by
          unfold xyzfree
          simp only [hdr_magic] at hm
          simp only [hm, if_false, ite_self]
        rw [e, e]
    · have e : xyzfree σ p = σ := by
        unfold xyzfree
        rw [if_neg h0, if_neg hr]
      rw [e, e]

/-- When `sbrk` refuses the request of `extend`, the test `*flag == -1` reads through
`(void*)-1`. -/
theorem extend_denied (σ : State) (size : Nat)
    (hceil : ¬ ((σ.brk : Int) - (σ.heap_start : Int) > (MEM_BUFFER : Int)))
    (hden : (sbrk σ (size + METADATA_SIZE)).1 = SBRK_FAILED) :
    extend σ size = .error Fault.segfault := by
  have hs : sbrk σ (size + METADATA_SIZE) = (SBRK_FAILED, σ) := by
    unfold sbrk at hden ⊢
    split
    · rename_i hg
      rw [if_pos hg] at hden
      simp only [SBRK_FAILED, PTR_RANGE, METADATA_SIZE] at hden hg
      omega
    · rfl
  unfold extend
  rw [if_neg hceil, hs]
  rfl

/-- On a finite chain `find_slot` returns. -/
theorem find_slot_returns (σ : State) (size : Nat) (l : List Nat) (hptr : σ.heap_start < PTR_RANGE)
    (hc : Chain σ.mem σ.heap_start l) : ∃ r, find_slot σ size = .ok r := by
  rw [find_slot_chain σ size l hc (chain_length_lt _ _ _ hptr hc)]
  cases l.find? (fun h => decide (hdr_available σ.mem h ≠ 0 ∧ hdr_size σ.mem h ≥ size)) with
  | none => exact ⟨_, rfl⟩
  | some h => exact ⟨_, rfl⟩

/-- The scenario of `test_case_1` for every request whose aligned size is not zero: two
blocks, both released, and the first one handed out again without growth. -/
theorem alloc_twice_release_both (m : Mem) (b lim s x y : Nat) (σ1 σ2 : State)
    (hb : 0 < b) (hs : s < UINT_RANGE) (hpos : 0 < align_size s)
    (h1 : xyzmalloc (initial m b lim) s = .ok (x, σ1)) (hx : x ≠ 0)
    (h2 : xyzmalloc σ1 s = .ok (y, σ2)) (hy : y ≠ 0) :
    x ≠ y ∧ x + align_size s ≤ y ∧
    hdr_available (xyzfree (xyzfree σ2 x) y).mem (get_metadata x) = 1 ∧
    hdr_available (xyzfree (xyzfree σ2 x) y).mem (get_metadata y) = 1 ∧
    ∃ σ3, xyzmalloc (xyzfree (xyzfree σ2 x) y) s = .ok (x, σ3) ∧ σ3.brk = σ2.brk := by
  obtain ⟨a1, a2, a3, a4⟩ := xyzmalloc_fresh _ _ _ _ rfl rfl h1 hx
  have ha := align_size_lt s hs
  have ha4 := align_size_mod s
  clear h1
  simp only [initial, METADATA_SIZE, PTR_RANGE, UINT_RANGE, OFF_SIZE, OFF_AVAILABLE, OFF_NEXT, OFF_MAGIC,
    MAGIC_NUMBER, Nat.add_zero] at *
  norm_num at a3 ha
  subst a1 a4
  have hfind2 := find_slot_chain
    { mem := store32 (store64 (store32 (store32 m b (align_size s)) (b + 4) 0) (b + 8) 0) (b + 16) 83,
      brk := b + (align_size s + 24), limit := lim, heap_start := b, heap_last_block := b }
    (align_size s) [b]
    (by
      simp (disch := omega) only [Chain, OFF_NEXT, load64_store32_disj, load64_store64_eq, true_and,
        and_true]
      omega)
    (by simp [PTR_RANGE])
  simp (disch := omega) only [List.find?, hdr_available, hdr_size, OFF_AVAILABLE, OFF_SIZE, Nat.add_zero,
    load32_store32_eq, load32_store32_disj, load32_store64_disj] at hfind2
  simp only [ne_eq, not_true_eq_false, false_and, decide_False] at hfind2
  obtain ⟨b1, b2, b3⟩ := xyzmalloc_grow _ _ _ _ _ (by simp only [ne_eq]; omega) hfind2 h2 hy
  obtain ⟨-, c2, c3, c4, c5⟩ := extend_ok _ _ _ _ b2 b3
  clear h2 b2 hfind2
  simp only [METADATA_SIZE, PTR_RANGE, UINT_RANGE, OFF_SIZE, OFF_AVAILABLE, OFF_NEXT, OFF_MAGIC,
    MAGIC_NUMBER, Nat.add_zero] at b1 c2 c3 c4 c5
  norm_num at c3
  have hb0 : ¬ b = 0 := by omega
  simp only [ne_eq, hb0, not_false_eq_true, if_true] at c5
  subst b1 c5
  clear b3
  -- both releases are accepted
  rw [xyzfree_accepted _ (b + 24) (by simp only [ne_eq]; omega) (by simp only; omega)
    (by simp only; omega)
    (by
      simp (disch := omega) only [hdr_magic, get_metadata, METADATA_SIZE, OFF_MAGIC, MAGIC_NUMBER,
        OFF_AVAILABLE, Nat.add_sub_cancel, load32_store32_eq, load32_store32_disj,
        load32_store64_disj])]
  rw [xyzfree_accepted _ (b + (align_size s + 24) + 24) (by simp only [ne_eq]; omega)
    (by simp only; omega) (by simp only; omega)
    (by
      simp (disch := omega) only [hdr_magic, get_metadata, METADATA_SIZE, OFF_MAGIC, MAGIC_NUMBER,
        OFF_AVAILABLE, Nat.add_sub_cancel, load32_store32_eq, load32_store32_disj,
        load32_store64_disj])]
  simp only [get_metadata, METADATA_SIZE, Nat.add_sub_cancel, OFF_AVAILABLE]
  refine ⟨by omega, by omega, ?_, ?_, ?_⟩
  · simp (disch := omega) only [hdr_available, OFF_AVAILABLE, load32_store32_eq, load32_store32_disj]
  · simp (disch := omega) only [hdr_available, OFF_AVAILABLE, load32_store32_eq]
  · refine Exists.imp (fun σ3 hh => ⟨hh.1, hh.2.1⟩) (xyzmalloc_reuse _ s
      [b, b + (align_size s + 24)] b ?_ ?_ ?_ ?_)
    · simp only [ne_eq]; omega
    · simp (disch := omega) only [Chain, OFF_NEXT, load64_store32_disj, load64_store64_eq,
        load64_store64_disj, true_and, and_true]
      omega
    · simp [PTR_RANGE]
    · simp (disch := omega) only [List.find?, hdr_available, hdr_size, OFF_AVAILABLE, OFF_SIZE,
        Nat.add_zero, load32_store32_eq, load32_store32_disj, load32_store64_disj]
      simp only [ne_eq, one_ne_zero, not_false_eq_true, ge_iff_le, le_refl, and_self, decide_True]

/-- Below the last multiple of four that an `unsigned int` can hold, `align_size` does not
shrink the request. -/
theorem align_size_ge (s : Nat) (h : s ≤ UINT_RANGE - ALIGNMENT_FACTOR) : s ≤ align_size s := by
  unfold align_size
  simp only [ALIGNMENT_FACTOR, UINT_RANGE] at *
  split <;> omega

theorem find?_first {α : Type} (p : α → Bool) (pre : List α) (h : α) (post : List α)
    (hpre : ∀ x ∈ pre, p x = false) (hh : p h = true) : (pre ++ h :: post).find? p = some h := by
  induction pre with
  | nil => simp [List.find?, hh]
  | cons y t ih =>
    have hy : p y = false := hpre y (List.mem_cons_self _ _)
    simp only [List.cons_append, List.find?, hy]
    exact ih (fun x hx => hpre x (List.mem_cons_of_mem _ hx))

theorem storeBytes_other (m : Mem) (a n v x : Nat) (h : x < a ∨ a + n ≤ x) :
    storeBytes m a n v x = m x := by
  simp only [storeBytes]
  rw [if_neg]
  omega

/-- From any header the links lead through headers at increasing addresses to `NULL`. -/
theorem chain_of_inv (σ : State) (H : Nat → Prop) (hI : Inv σ H) :
    ∀ (k a : Nat), H a → σ.brk - a ≤ k →
      ∃ l, Chain σ.mem a l ∧ ∀ x ∈ l, H x ∧ a ≤ x := by
  intro k
  induction k with
  | zero =>
    intro a ha hk
    have := (hI.block a ha).2.1
    simp only [METADATA_SIZE] at this
    omega
  | succ k ih =>
    intro a ha hk
    have hb := hI.block a ha
    have hpos := hI.start_pos
    simp only [METADATA_SIZE] at hb
    rcases hI.link a ha with h0 | ⟨hn, hle⟩
    · refine ⟨[a], ?_, ?_⟩
      · exact ⟨rfl, by omega, h0⟩
      · intro x hx
        rw [List.mem_singleton] at hx
        subst hx
        exact ⟨ha, Nat.le_refl _⟩
    · simp only [METADATA_SIZE] at hle
      obtain ⟨l, hc, hl⟩ := ih (hdr_next σ.mem a) hn (by omega)
      refine ⟨a :: l, ?_, ?_⟩
      · exact ⟨rfl, by omega, hc⟩
      · intro x hx
        rcases List.mem_cons.mp hx with rfl | hx
        · exact ⟨ha, Nat.le_refl _⟩
        · exact ⟨(hl x hx).1, by have := (hl x hx).2; omega⟩

/-- The chain rooted at `heap_start` of an arena that satisfies the invariant. -/
theorem chain_of_inv_start (σ : State) (H : Nat → Prop) (hI : Inv σ H) :
    ∃ l, Chain σ.mem σ.heap_start l ∧ ∀ x ∈ l, H x :=
  let ⟨l, hc, hl⟩ := chain_of_inv σ H hI _ _ hI.start_mem (Nat.le_refl _)
  ⟨l, hc, fun x hx => (hl x hx).1⟩

/-- The invariant only looks at the fields `size`, `next_block` and `magic_number` of the
headers and at the memory above the break. -/
theorem inv_of_fields (σ σ2 : State) (H : Nat → Prop) (hI : Inv σ H)
    (hb : σ2.brk = σ.brk) (hs : σ2.heap_start = σ.heap_start)
    (hl : σ2.heap_last_block = σ.heap_last_block)
    (hf : ∀ h, H h → hdr_size σ2.mem h = hdr_size σ.mem h ∧
      hdr_next σ2.mem h = hdr_next σ.mem h ∧ hdr_magic σ2.mem h = hdr_magic σ.mem h)
    (hz : ∀ x, σ.brk ≤ x → σ2.mem x = 0) : Inv σ2 H := by
  refine ⟨by rw [hs]; exact hI.start_pos, by rw [hb]; exact hI.brk_lt, by rw [hs]; exact hI.start_mem,
    by rw [hl]; exact hI.last_mem, ?_, ?_, ?_, by rw [hb]; exact hz⟩
  · intro h hh
    rw [(hf h hh).1, (hf h hh).2.2, hs, hb]
    exact hI.block h hh
  · intro h k hh hk hne
    rw [(hf h hh).1, (hf k hk).1]
    exact hI.disjoint h k hh hk hne
  · intro h hh
    rw [(hf h hh).1, (hf h hh).2.1]
    exact hI.link h hh

/-- The four fields of a header only depend on its 24 bytes. -/
theorem hdr_fields_congr (m m2 : Mem) (k : Nat) (h : ∀ x, k ≤ x → x < k + 24 → m2 x = m x) :
    hdr_size m2 k = hdr_size m k ∧ hdr_available m2 k = hdr_available m k ∧
    hdr_next m2 k = hdr_next m k ∧ hdr_magic m2 k = hdr_magic m k := by
  simp only [hdr_size, hdr_available, hdr_next, hdr_magic, load32, load64, OFF_SIZE, OFF_AVAILABLE,
    OFF_NEXT, OFF_MAGIC]
  refine ⟨?_, ?_, ?_, ?_⟩ <;> apply loadBytes_congr <;> intro x h1 h2 <;> apply h <;> omega

theorem load32_of_zero (m : Mem) (a : Nat) (h : ∀ x, a ≤ x → m x = 0) : load32 m a = 0 := by
  have e : loadBytes m a 4 = loadBytes zeroMem a 4 :=
    loadBytes_congr m zeroMem a 4 (fun x h1 _ => by rw [h x h1]; rfl)
  unfold load32
  rw [e]
  simp [loadBytes, zeroMem]

/-- A release outside the range `[heap_start, break)` changes nothing. -/
theorem xyzfree_out_of_range (σ : State) (p : Nat) (h : σ.heap_start = 0 ∨ σ.brk ≤ p) :
    xyzfree σ p = σ := by
  unfold xyzfree
  by_cases h0 : σ.heap_start = 0
  · rw [if_pos h0]
  · rw [if_neg h0, if_neg]
    omega

/-- Writing the `available` field of a header keeps the invariant and the `available`
fields of all other headers. -/
theorem inv_store_available (σ : State) (H : Nat → Prop) (h v : Nat) (hI : Inv σ H) (hh : H h) :
    Inv { σ with mem := store32 σ.mem (h + OFF_AVAILABLE) v } H ∧
    ∀ k, H k → k ≠ h →
      hdr_available (store32 σ.mem (h + OFF_AVAILABLE) v) k = hdr_available σ.mem k := by
  have hbh := hI.block h hh
  simp only [METADATA_SIZE] at hbh
  have hother : ∀ k, H k → k ≠ h → ∀ x, k ≤ x → x < k + 24 →
      store32 σ.mem (h + OFF_AVAILABLE) v x = σ.mem x := by
    intro k hk hne x h1 h2
    have hd := hI.disjoint h k hh hk (Ne.symm hne)
    simp only [METADATA_SIZE] at hd
    apply storeBytes_other
    simp only [OFF_AVAILABLE]
    omega
  refine ⟨inv_of_fields σ _ H hI rfl rfl rfl ?_ ?_, ?_⟩
  · intro k hk
    by_cases hkh : k = h
    · subst hkh
      simp only [hdr_size, hdr_next, hdr_magic, OFF_SIZE, OFF_AVAILABLE, OFF_NEXT, OFF_MAGIC]
      exact ⟨load32_store32_disj _ _ _ _ (by omega), load64_store32_disj _ _ _ _ (by omega),
        load32_store32_disj _ _ _ _ (by omega)⟩
    · have := hdr_fields_congr σ.mem (store32 σ.mem (h + OFF_AVAILABLE) v) k (hother k hk hkh)
      exact ⟨this.1, this.2.2.1, this.2.2.2⟩
  · intro x hx
    have e : store32 σ.mem (h + OFF_AVAILABLE) v x = σ.mem x := by
      apply storeBytes_other
      simp only [OFF_AVAILABLE]
      omega
    simp only
    rw [e]
    exact hI.fresh x hx
  · intro k hk hkh
    exact (hdr_fields_congr σ.mem _ k (hother k hk hkh)).2.1

/-- A release of a pointer that belongs to a header keeps the invariant; it touches the
`available` field of that header only. -/
theorem inv_xyzfree (σ : State) (H : Nat → Prop) (h : Nat) (hI : Inv σ H) (hh : H h) :
    Inv (xyzfree σ (h + METADATA_SIZE)) H ∧
    ∀ k, H k → k ≠ h →
      hdr_available (xyzfree σ (h + METADATA_SIZE)).mem k = hdr_available σ.mem k := by
  have hbh := hI.block h hh
  have hpos := hI.start_pos
  by_cases hr : h + METADATA_SIZE < σ.brk
  · have hm : hdr_magic σ.mem (get_metadata (h + METADATA_SIZE)) = MAGIC_NUMBER := by
      simp only [get_metadata, Nat.add_sub_cancel]
      exact hbh.2.2.1
    rw [xyzfree_accepted σ _ (by omega) (by omega) hr hm]
    simp only [get_metadata, Nat.add_sub_cancel]
    exact inv_store_available σ H h 1 hI hh
  · rw [xyzfree_out_of_range σ _ (Or.inr (by omega))]
    exact ⟨hI, fun _ _ _ => rfl⟩

/-- Effect of `divide_slot` on a block that is larger than the request plus a header: the
fields of the two resulting headers, and the bytes it leaves alone. -/
theorem divide_slot_spec (σ : State) (h n : Nat) (hn : n < 4294967296)
    (hbig : n + 24 < hdr_size σ.mem h)
    (hend : h + 24 + hdr_size σ.mem h < 18446744073709551616) :
    (divide_slot σ h n).brk = σ.brk ∧ (divide_slot σ h n).limit = σ.limit ∧
    (divide_slot σ h n).heap_start = σ.heap_start ∧
    (divide_slot σ h n).heap_last_block = σ.heap_last_block ∧
    hdr_size (divide_slot σ h n).mem h = n ∧
    hdr_available (divide_slot σ h n).mem h = hdr_available σ.mem h ∧
    hdr_next (divide_slot σ h n).mem h = h + 24 + n ∧
    hdr_magic (divide_slot σ h n).mem h = hdr_magic σ.mem h ∧
    hdr_size (divide_slot σ h n).mem (h + 24 + n) = hdr_size σ.mem h - n - 24 ∧
    hdr_available (divide_slot σ h n).mem (h + 24 + n) = 1 ∧
    hdr_next (divide_slot σ h n).mem (h + 24 + n) = hdr_next σ.mem h ∧
    hdr_magic (divide_slot σ h n).mem (h + 24 + n) = 83 ∧
    ∀ x, (x < h ∨ h + 24 + hdr_size σ.mem h ≤ x) → (divide_slot σ h n).mem x = σ.mem x := by
  have hS : hdr_size σ.mem h < 4294967296 := load32_lt _ _
  have hN : hdr_next σ.mem h < 18446744073709551616 := load64_lt _ _
  simp only [hdr_size, hdr_next, OFF_SIZE, OFF_NEXT, Nat.add_zero] at hbig hend hS hN
  refine ⟨rfl, rfl, rfl, rfl, ?_⟩
  simp (disch := omega) only [divide_slot, hdr_size, hdr_available, hdr_next, hdr_magic, METADATA_SIZE,
    OFF_SIZE, OFF_AVAILABLE, OFF_NEXT, OFF_MAGIC, MAGIC_NUMBER, UINT_RANGE, Nat.add_zero,
    load32_store32_eq, load32_store32_disj, load32_store64_disj, load64_store32_disj, load64_store64_eq,
    load64_store64_disj, true_and]
  refine ⟨by omega, ?_⟩
  intro x hx
  simp only [store32, store64]
  repeat rw [storeBytes_other _ _ _ _ _ (by omega)]

/-- Effect of a successful `extend`: the new header, the link from the previous
`heap_last_block`, and the bytes it leaves alone. -/
theorem extend_spec (σ σ2 : State) (n p : Nat) (he : extend σ n = .ok (p, σ2)) (hp : p ≠ 0)
    (hn : n < 4294967296)
    (hl : σ.heap_last_block = 0 ∨ σ.heap_last_block + 24 ≤ σ.brk) :
    p = σ.brk ∧ σ2.brk = σ.brk + (n + 24) ∧ σ2.brk < 18446744073709551616 ∧
    σ2.brk ≤ σ.limit ∧ σ2.limit = σ.limit ∧
    σ2.heap_start = σ.heap_start ∧ σ2.heap_last_block = σ.brk ∧
    hdr_size σ2.mem σ.brk = n ∧ hdr_available σ2.mem σ.brk = 0 ∧
    hdr_next σ2.mem σ.brk = 0 ∧ hdr_magic σ2.mem σ.brk = 83 ∧
    (σ.heap_last_block ≠ 0 → hdr_next σ2.mem σ.heap_last_block = σ.brk) ∧
    ∀ x, (x < σ.brk ∨ σ.brk + 20 ≤ x) →
      (σ.heap_last_block = 0 ∨ x < σ.heap_last_block + 8 ∨ σ.heap_last_block + 16 ≤ x) →
      σ2.mem x = σ.mem x := by
  obtain ⟨e1, e2, e3, -, e5⟩ := extend_ok σ σ2 n p he hp
  simp only [METADATA_SIZE, PTR_RANGE, OFF_SIZE, OFF_AVAILABLE, OFF_NEXT, OFF_MAGIC, MAGIC_NUMBER,
    Nat.add_zero] at e2 e3 e5
  norm_num at e3
  subst e5
  refine ⟨e1, rfl, e3, e2, rfl, rfl, rfl, ?_⟩
  by_cases h0 : σ.heap_last_block = 0
  · simp (disch := omega) only [h0, ne_eq, not_true_eq_false, if_false, hdr_size, hdr_available,
      hdr_next, hdr_magic, OFF_SIZE, OFF_AVAILABLE, OFF_NEXT, OFF_MAGIC, Nat.add_zero,
      load32_store32_eq, load32_store32_disj, load32_store64_disj, load64_store32_disj,
      load64_store64_eq, load64_store64_disj, true_and, false_implies]
    intro x hx _
    simp only [store32, store64]
    repeat rw [storeBytes_other _ _ _ _ _ (by omega)]
  · have hl2 : σ.heap_last_block + 24 ≤ σ.brk := by omega
    simp (disch := omega) only [h0, ne_eq, not_false_eq_true, if_true, hdr_size, hdr_available,
      hdr_next, hdr_magic, OFF_SIZE, OFF_AVAILABLE, OFF_NEXT, OFF_MAGIC, Nat.add_zero,
      load32_store32_eq, load32_store32_disj, load32_store64_disj, load64_store32_disj,
      load64_store64_eq, load64_store64_disj, true_and, true_implies]
    intro x hx hx2
    simp only [false_or] at hx2
    simp only [store32, store64]
    repeat rw [storeBytes_other _ _ _ _ _ (by omega)]

/-- With zero-filled memory above the break, `extend` returns `NULL` only at its first
test, and then it changes nothing. -/
theorem extend_null (σ σ2 : State) (n : Nat) (hz : ∀ x, σ.brk ≤ x → σ.mem x = 0)
    (hb : σ.brk ≠ 0) (he : extend σ n = .ok (0, σ2)) :
    σ2 = σ ∧ (σ.brk : Int) - (σ.heap_start : Int) > (MEM_BUFFER : Int) := by
  unfold extend at he
  by_cases hc : (σ.brk : Int) - (σ.heap_start : Int) > (MEM_BUFFER : Int)
  · rw [if_pos hc] at he
    simp only [Except.ok.injEq, Prod.mk.injEq, true_and] at he
    exact ⟨he.symm, hc⟩
  · rw [if_neg hc] at he
    unfold sbrk at he
    by_cases hg : σ.brk + (n + METADATA_SIZE) ≤ σ.limit ∧ σ.brk + (n + METADATA_SIZE) < PTR_RANGE
    · rw [if_pos hg] at he
      have hb4 : σ.brk + 4 ≤ PTR_RANGE := by
        have := hg.2
        simp only [METADATA_SIZE] at this
        omega
      simp only [deref32, if_pos hb4, load32_of_zero σ.mem σ.brk hz, UINT_RANGE] at he
      norm_num at he
      exact absurd he.1 hb
    · rw [if_neg hg] at he
      simp [deref32, SBRK_FAILED, PTR_RANGE] at he

/-- With zero-filled memory above the break, `extend` succeeds whenever its first test
passes and `sbrk` grants the request. -/
theorem extend_granted (σ : State) (n : Nat) (hz : ∀ x, σ.brk ≤ x → σ.mem x = 0)
    (hc : ¬ ((σ.brk : Int) - (σ.heap_start : Int) > (MEM_BUFFER : Int)))
    (hg : σ.brk + (n + METADATA_SIZE) ≤ σ.limit ∧ σ.brk + (n + METADATA_SIZE) < PTR_RANGE) :
    ∃ σ2, extend σ n = .ok (σ.brk, σ2) := by
  unfold extend
  rw [if_neg hc]
  unfold sbrk
  rw [if_pos hg]
  have hb4 : σ.brk + 4 ≤ PTR_RANGE := by
    have := hg.2
    simp only [METADATA_SIZE] at this
    omega
  simp only [deref32, if_pos hb4, load32_of_zero σ.mem σ.brk hz, UINT_RANGE]
  norm_num

/-- Dividing a block keeps the invariant, with the header of the remainder added to the
set of headers, and keeps the `available` field of every existing header. -/
theorem inv_divide_slot (σ : State) (H : Nat → Prop) (h n : Nat) (hI : Inv σ H) (hh : H h)
    (hn : n < 4294967296) (hn4 : n % 4 = 0) (hbig : n + 24 < hdr_size σ.mem h) :
    Inv (divide_slot σ h n) (fun x => H x ∨ x = h + 24 + n) ∧
    ¬ H (h + 24 + n) ∧
    ∀ k, H k → hdr_available (divide_slot σ h n).mem k = hdr_available σ.mem k := by
  have hbh := hI.block h hh
  have hbrk := hI.brk_lt
  simp only [METADATA_SIZE, PTR_RANGE, MAGIC_NUMBER, ALIGNMENT_FACTOR] at hbh hbrk
  norm_num at hbrk
  obtain ⟨s1, -, s3, s4, f1, f2, f3, f4, g1, g2, g3, g4, fr⟩ :=
    divide_slot_spec σ h n hn hbig (by omega)
  -- the other headers keep their fields
  have hother : ∀ k, H k → k ≠ h →
      hdr_size (divide_slot σ h n).mem k = hdr_size σ.mem k ∧
      hdr_available (divide_slot σ h n).mem k = hdr_available σ.mem k ∧
      hdr_next (divide_slot σ h n).mem k = hdr_next σ.mem k ∧
      hdr_magic (divide_slot σ h n).mem k = hdr_magic σ.mem k := by
    intro k hk hne
    have hd := hI.disjoint h k hh hk (Ne.symm hne)
    simp only [METADATA_SIZE] at hd
    apply hdr_fields_congr
    intro x h1 h2
    apply fr
    omega
  have hnew : ¬ H (h + 24 + n) := by
    intro hk
    have hd := hI.disjoint h (h + 24 + n) hh hk (by omega)
    simp only [METADATA_SIZE] at hd
    omega
  have hcases : ∀ k, (H k ∨ k = h + 24 + n) → k = h + 24 + n ∨ k = h ∨ (H k ∧ k ≠ h) := by
    intro k hk
    rcases hk with hk | hk
    · by_cases e : k = h
      · exact Or.inr (Or.inl e)
      · exact Or.inr (Or.inr ⟨hk, e⟩)
    · exact Or.inl hk
  refine ⟨⟨by rw [s3]; exact hI.start_pos, by rw [s1]; exact hI.brk_lt,
    by rw [s3]; exact Or.inl hI.start_mem, by rw [s4]; exact Or.inl hI.last_mem, ?_, ?_, ?_, ?_⟩,
    hnew, ?_⟩
  · -- block
    intro k hk
    rw [s1, s3]
    simp only [METADATA_SIZE, MAGIC_NUMBER, ALIGNMENT_FACTOR]
    rcases hcases k hk with rfl | rfl | ⟨hk, hne⟩
    · rw [g1, g4]
      omega
    · rw [f1, f4]
      omega
    · rw [(hother k hk hne).1, (hother k hk hne).2.2.2]
      have := hI.block k hk
      simp only [METADATA_SIZE, MAGIC_NUMBER, ALIGNMENT_FACTOR] at this
      exact this
  · -- disjoint
    intro a b ha hb hab
    simp only [METADATA_SIZE]
    rcases hcases a ha with rfl | rfl | ⟨ha2, hane⟩ <;> rcases hcases b hb with rfl | rfl | ⟨hb2, hbne⟩
    · exact absurd rfl hab
    · rw [g1, f1]; omega
    · rw [g1, (hother b hb2 hbne).1]
      have hd := hI.disjoint h b hh hb2 (Ne.symm hbne)
      simp only [METADATA_SIZE] at hd
      omega
    · rw [g1, f1]; omega
    · exact absurd rfl hab
    · rw [f1, (hother b hb2 hbne).1]
      have hd := hI.disjoint a b hh hb2 (Ne.symm hbne)
      simp only [METADATA_SIZE] at hd
      omega
    · rw [g1, (hother a ha2 hane).1]
      have hd := hI.disjoint h a hh ha2 (Ne.symm hane)
      simp only [METADATA_SIZE] at hd
      omega
    · rw [f1, (hother a ha2 hane).1]
      have hd := hI.disjoint b a hh ha2 (Ne.symm hane)
      simp only [METADATA_SIZE] at hd
      omega
    · rw [(hother a ha2 hane).1, (hother b hb2 hbne).1]
      have hd := hI.disjoint a b ha2 hb2 hab
      simp only [METADATA_SIZE] at hd
      exact hd
  · -- link
    intro k hk
    simp only [METADATA_SIZE]
    rcases hcases k hk with rfl | rfl | ⟨hk, hne⟩
    · rw [g3, g1]
      rcases hI.link h hh with h0 | ⟨hm, hle⟩
      · exact Or.inl h0
      · simp only [METADATA_SIZE] at hle
        exact Or.inr ⟨Or.inl hm, by omega⟩
    · rw [f3, f1]
      exact Or.inr ⟨Or.inr rfl, by omega⟩
    · rw [(hother k hk hne).2.2.1, (hother k hk hne).1]
      rcases hI.link k hk with h0 | ⟨hm, hle⟩
      · exact Or.inl h0
      · simp only [METADATA_SIZE] at hle
        exact Or.inr ⟨Or.inl hm, hle⟩
  · -- fresh
    intro x hx
    rw [s1] at hx
    rw [fr x (by omega)]
    exact hI.fresh x hx
  · intro k hk
    by_cases e : k = h
    · subst e; exact f2
    · exact (hother k hk e).2.1

/-- Growing the arena keeps the invariant, with the new header added to the set of
headers, and keeps the `available` field of every existing header. -/
theorem inv_extend (σ σ2 : State) (H : Nat → Prop) (n p : Nat) (hI : Inv σ H)
    (he : extend σ n = .ok (p, σ2)) (hp : p ≠ 0) (hn : n < 4294967296) (hn4 : n % 4 = 0) :
    p = σ.brk ∧ Inv σ2 (fun x => H x ∨ x = σ.brk) ∧ ¬ H σ.brk ∧
    hdr_available σ2.mem σ.brk = 0 ∧
    ∀ k, H k → hdr_available σ2.mem k = hdr_available σ.mem k := by
  have hbl := hI.block _ hI.last_mem
  have hpos := hI.start_pos
  simp only [METADATA_SIZE, MAGIC_NUMBER, ALIGNMENT_FACTOR] at hbl
  obtain ⟨e1, e2, e3, -, -, e6, e7, g1, g2, g3, g4, gl, fr⟩ :=
    extend_spec σ σ2 n p he hp hn (Or.inr (by omega))
  have hl0 : σ.heap_last_block ≠ 0 := by omega
  have hnew : ¬ H σ.brk := by
    intro hk
    have := hI.block _ hk
    simp only [METADATA_SIZE] at this
    omega
  -- fields of the existing headers
  have hold : ∀ k, H k →
      hdr_size σ2.mem k = hdr_size σ.mem k ∧ hdr_available σ2.mem k = hdr_available σ.mem k ∧
      hdr_magic σ2.mem k = hdr_magic σ.mem k ∧
      (k ≠ σ.heap_last_block → hdr_next σ2.mem k = hdr_next σ.mem k) := by
    intro k hk
    have hbk := hI.block k hk
    simp only [METADATA_SIZE] at hbk
    by_cases e : k = σ.heap_last_block
    · subst e
      simp only [hdr_size, hdr_available, hdr_magic, load32, OFF_SIZE, OFF_AVAILABLE, OFF_MAGIC]
      refine ⟨?_, ?_, ?_, fun hne => absurd rfl hne⟩ <;> apply loadBytes_congr <;> intro x h1 h2 <;>
        apply fr <;> omega
    · have hd := hI.disjoint k _ hk hI.last_mem e
      simp only [METADATA_SIZE] at hd
      have := hdr_fields_congr σ.mem σ2.mem k (by
        intro x h1 h2
        apply fr <;> omega)
      exact ⟨this.1, this.2.1, this.2.2.2, fun _ => this.2.2.1⟩
  refine ⟨e1, ⟨by rw [e6]; exact hI.start_pos, by rw [e2]; simp only [PTR_RANGE]; omega,
    by rw [e6]; exact Or.inl hI.start_mem, by rw [e7]; exact Or.inr rfl, ?_, ?_, ?_, ?_⟩,
    hnew, g2, fun k hk => (hold k hk).2.1⟩
  · -- block
    intro k hk
    rw [e2, e6]
    simp only [METADATA_SIZE, MAGIC_NUMBER, ALIGNMENT_FACTOR]
    rcases hk with hk | rfl
    · rw [(hold k hk).1, (hold k hk).2.2.1]
      have := hI.block k hk
      simp only [METADATA_SIZE, MAGIC_NUMBER, ALIGNMENT_FACTOR] at this
      omega
    · rw [g1, g4]
      omega
  · -- disjoint
    intro a b ha hb hab
    simp only [METADATA_SIZE]
    rcases ha with ha | rfl <;> rcases hb with hb | rfl
    · rw [(hold a ha).1, (hold b hb).1]
      have hd := hI.disjoint a b ha hb hab
      simp only [METADATA_SIZE] at hd
      exact hd
    · rw [(hold a ha).1]
      have := hI.block a ha
      simp only [METADATA_SIZE] at this
      omega
    · rw [(hold b hb).1]
      have := hI.block b hb
      simp only [METADATA_SIZE] at this
      omega
    · exact absurd rfl hab
  · -- link
    intro k hk
    simp only [METADATA_SIZE]
    rcases hk with hk | rfl
    · by_cases e : k = σ.heap_last_block
      · subst e
        rw [gl hl0, (hold _ hk).1]
        exact Or.inr ⟨Or.inr rfl, by omega⟩
      · rw [(hold k hk).2.2.2 e, (hold k hk).1]
        rcases hI.link k hk with h0 | ⟨hm, hle⟩
        · exact Or.inl h0
        · simp only [METADATA_SIZE] at hle
          exact Or.inr ⟨Or.inl hm, hle⟩
    · exact Or.inl g3
  · -- fresh
    intro x hx
    rw [e2] at hx
    rw [fr x (by omega) (by omega)]
    exact hI.fresh x (by omega)

/-- Function `xyzmalloc` on an arena whose `heap_start` is `NULL`. -/
theorem xyzmalloc_unfold_fresh (σ : State) (s : Nat) (h0 : σ.heap_start = 0) :
    xyzmalloc σ s =
      match extend { σ with heap_start := σ.brk } (align_size s) with
      | .error e => .error e
      | .ok (slot, σ2) => if slot = 0 then .ok (0, σ2) else .ok (slot + METADATA_SIZE, σ2) := by
  unfold xyzmalloc
  simp only [h0, ne_eq, not_true_eq_false, if_false]

/-- Function `xyzmalloc` on an initialised arena in which the search finds nothing. -/
theorem xyzmalloc_unfold_nofit (σ σ1 : State) (s : Nat) (h0 : σ.heap_start ≠ 0)
    (hf : find_slot σ (align_size s) = .ok (0, σ1)) :
    xyzmalloc σ s =
      match extend σ1 (align_size s) with
      | .error e => .error e
      | .ok (slot, σ2) => if slot = 0 then .ok (0, σ2) else .ok (slot + METADATA_SIZE, σ2) := by
  unfold xyzmalloc
  simp only [h0, ne_eq, not_false_eq_true, if_true, hf, not_true_eq_false, if_false]

/-- The first allocation establishes the invariant. -/
theorem inv_first (σ σ2 : State) (s p : Nat) (h0 : σ.heap_start = 0)
    (hl : σ.heap_last_block = 0) (hb : 0 < σ.brk) (hz : ∀ x, σ.brk ≤ x → σ.mem x = 0)
    (hs : s < UINT_RANGE) (hm : xyzmalloc σ s = .ok (p, σ2)) :
    p = σ.brk + METADATA_SIZE ∧ Inv σ2 (fun x => x = σ.brk) ∧
    hdr_available σ2.mem σ.brk = 0 := by
  have hn := align_size_lt s hs
  have hn4 := align_size_mod s
  simp only [UINT_RANGE] at hn
  norm_num at hn
  rw [xyzmalloc_unfold_fresh σ s h0] at hm
  cases he : extend { σ with heap_start := σ.brk } (align_size s) with
  | error e => rw [he] at hm; simp at hm
  | ok r =>
    obtain ⟨slot, σ3⟩ := r
    rw [he] at hm
    simp only at hm
    by_cases hslot : slot = 0
    · subst hslot
      have := (extend_null { σ with heap_start := σ.brk } _ _ hz (by simp only; omega) he).2
      simp at this
      have hpos : (0 : Int) ≤ (MEM_BUFFER : Int) := Int.ofNat_nonneg _
      omega
    · rw [if_neg hslot] at hm
      simp only [Except.ok.injEq, Prod.mk.injEq] at hm
      obtain ⟨hm1, hm2⟩ := hm
      subst hm2
      obtain ⟨e1, e2, e3, -, -, e6, e7, g1, g2, g3, g4, -, fr⟩ :=
        extend_spec _ _ _ _ he hslot hn (Or.inl hl)
      simp only at e1 e2 e6 e7 g1 g2 g3 g4 fr
      subst e1
      refine ⟨hm1.symm, ⟨by rw [e6]; exact hb, by rw [e2]; simp only [PTR_RANGE]; omega,
        by rw [e6], by rw [e7], ?_, ?_, ?_, ?_⟩, g2⟩
      · intro k hk
        subst hk
        rw [e2, e6, g1, g4]
        simp only [METADATA_SIZE, MAGIC_NUMBER, ALIGNMENT_FACTOR]
        exact ⟨by omega, by omega, trivial, hn4⟩
      · intro a b ha hb2 hab
        exact absurd (ha.trans hb2.symm) hab
      · intro k hk
        subst hk
        exact Or.inl g3
      · intro x hx
        rw [e2] at hx
        rw [fr x (by omega) (Or.inl hl)]
        exact hz x (by omega)

/-- An allocation on an arena that satisfies the invariant keeps it.  The set of headers
can only grow; a returned pointer belongs to a header that is now unavailable and that, if
it existed before, was available; the `available` fields of all other headers are kept;
and a `NULL` result leaves the state as it was. -/
theorem inv_xyzmalloc (σ σ2 : State) (H : Nat → Prop) (s p : Nat) (hI : Inv σ H)
    (hs : s < UINT_RANGE) (hm : xyzmalloc σ s = .ok (p, σ2)) :
    ∃ H2 : Nat → Prop, Inv σ2 H2 ∧ (∀ h, H h → H2 h) ∧
      (p ≠ 0 → ∃ h, H2 h ∧ p = h + METADATA_SIZE ∧ hdr_available σ2.mem h = 0 ∧
        (H h → hdr_available σ.mem h ≠ 0)) ∧
      (∀ k, H k → k + METADATA_SIZE ≠ p → hdr_available σ2.mem k = hdr_available σ.mem k) ∧
      (p = 0 → σ2 = σ) := by
  have hn := align_size_lt s hs
  have hn4 := align_size_mod s
  simp only [UINT_RANGE] at hn
  norm_num at hn
  have hpos := hI.start_pos
  have h0 : σ.heap_start ≠ 0 := by omega
  have hbs := hI.block _ hI.start_mem
  have hbrk := hI.brk_lt
  obtain ⟨l, hc, hl⟩ := chain_of_inv_start σ H hI
  have hptr : σ.heap_start < PTR_RANGE := by
    simp only [METADATA_SIZE] at hbs
    omega
  have hf := find_slot_chain σ (align_size s) l hc (chain_length_lt _ _ _ hptr hc)
  cases hfd : l.find? (fun h => decide (hdr_available σ.mem h ≠ 0 ∧ hdr_size σ.mem h ≥ align_size s)) with
  | none =>
    rw [hfd] at hf
    simp only at hf
    rw [xyzmalloc_unfold_nofit σ σ s h0 hf] at hm
    cases he : extend σ (align_size s) with
    | error e => rw [he] at hm; simp at hm
    | ok r =>
      obtain ⟨slot, σ3⟩ := r
      rw [he] at hm
      simp only at hm
      by_cases hslot : slot = 0
      · subst hslot
        rw [if_pos rfl] at hm
        simp only [Except.ok.injEq, Prod.mk.injEq] at hm
        obtain ⟨hm1, hm2⟩ := hm
        have e := (extend_null σ σ3 _ hI.fresh (by simp only [METADATA_SIZE] at hbs; omega) he).1
        subst hm1 hm2 e
        exact ⟨H, hI, fun _ hh => hh, fun hp => absurd rfl hp, fun _ _ _ => rfl, fun _ => rfl⟩
      · rw [if_neg hslot] at hm
        simp only [Except.ok.injEq, Prod.mk.injEq] at hm
        obtain ⟨hm1, hm2⟩ := hm
        subst hm2
        obtain ⟨e1, hI2, hnew, ha, hfr⟩ := inv_extend σ σ3 H _ slot hI he hslot hn hn4
        subst e1
        refine ⟨_, hI2, fun _ hh => Or.inl hh, fun _ => ⟨σ.brk, Or.inr rfl, hm1.symm, ha,
          fun hh => absurd hh hnew⟩, fun k hk _ => hfr k hk, ?_⟩
        intro hp
        simp only [METADATA_SIZE] at hm1
        omega
  | some h =>
    rw [hfd] at hf
    simp only at hf
    have hmem : h ∈ l := List.mem_of_find?_eq_some hfd
    have hh : H h := hl h hmem
    have hfit : hdr_available σ.mem h ≠ 0 ∧ hdr_size σ.mem h ≥ align_size s := by
      have := List.find?_some hfd
      simpa using this
    have hne : h ≠ 0 := chain_ne_zero _ _ _ hc h hmem
    obtain ⟨hI1, hfr1⟩ := inv_store_available σ H h 0 hI hh
    have ha1 : hdr_available (store32 σ.mem (h + OFF_AVAILABLE) 0) h = 0 := by
      simp only [hdr_available]
      exact load32_store32_same _ _ _ (by decide)
    by_cases hbig : hdr_size (store32 σ.mem (h + OFF_AVAILABLE) 0) h > align_size s + METADATA_SIZE
    · rw [xyzmalloc_reuse_split σ _ s h h0 hf hne hbig] at hm
      simp only [Except.ok.injEq, Prod.mk.injEq] at hm
      obtain ⟨hm1, hm2⟩ := hm
      subst hm2
      simp only [METADATA_SIZE] at hbig
      obtain ⟨hI2, -, hfr2⟩ := inv_divide_slot _ H h (align_size s) hI1 hh hn hn4 (by simp only; omega)
      refine ⟨_, hI2, fun _ hk => Or.inl hk, fun _ => ⟨h, Or.inl hh, hm1.symm, ?_, fun _ => hfit.1⟩,
        ?_, ?_⟩
      · rw [hfr2 h hh]
        exact ha1
      · intro k hk hkp
        have hkh : k ≠ h := by
          intro e
          subst e
          exact hkp hm1
        rw [hfr2 k hk]
        exact hfr1 k hk hkh
      · intro hp
        simp only [METADATA_SIZE] at hm1
        omega
    · rw [xyzmalloc_reuse_whole σ _ s h h0 hf hne hbig] at hm
      simp only [Except.ok.injEq, Prod.mk.injEq] at hm
      obtain ⟨hm1, hm2⟩ := hm
      subst hm2
      refine ⟨H, hI1, fun _ hk => hk, fun _ => ⟨h, hh, hm1.symm, ha1, fun _ => hfit.1⟩, ?_, ?_⟩
      · intro k hk hkp
        have hkh : k ≠ h := by
          intro e
          subst e
          exact hkp hm1
        exact hfr1 k hk hkh
      · intro hp
        simp only [METADATA_SIZE] at hm1
        omega

/-- Every state of a run is either the state at program start or satisfies the invariant,
with every returned pointer belonging to a header. -/
theorem reach_inv (σ : State) (ret : List Nat) (hr : Reach σ ret) :
    (σ.heap_start = 0 ∧ σ.heap_last_block = 0 ∧ 0 < σ.brk ∧ (∀ x, σ.brk ≤ x → σ.mem x = 0) ∧
      ret = []) ∨
    ∃ H : Nat → Prop, Inv σ H ∧ ∀ p ∈ ret, ∃ h, H h ∧ p = h + METADATA_SIZE := by
  induction hr with
  | start m b lim hb hz => exact Or.inl ⟨rfl, rfl, hb, hz, rfl⟩
  | malloc σ ret s p σ2 _ hs hm ih =>
    rcases ih with ⟨h0, hl, hb, hz, hret⟩ | ⟨H, hI, hret⟩
    · obtain ⟨e1, hI2, -⟩ := inv_first σ σ2 s p h0 hl hb hz hs hm
      refine Or.inr ⟨_, hI2, ?_⟩
      intro q hq
      have hp : p ≠ 0 := by simp only [METADATA_SIZE] at e1; omega
      rw [if_neg hp, hret] at hq
      rw [List.mem_singleton] at hq
      exact ⟨σ.brk, rfl, hq.trans e1⟩
    · obtain ⟨H2, hI2, hsub, hnew, -, -⟩ := inv_xyzmalloc σ σ2 H s p hI hs hm
      refine Or.inr ⟨H2, hI2, ?_⟩
      intro q hq
      by_cases hp : p = 0
      · rw [if_pos hp] at hq
        obtain ⟨h, hh, e⟩ := hret q hq
        exact ⟨h, hsub h hh, e⟩
      · rw [if_neg hp] at hq
        rcases List.mem_cons.mp hq with rfl | hq
        · obtain ⟨h, hh, e, -⟩ := hnew hp
          exact ⟨h, hh, e⟩
        · obtain ⟨h, hh, e⟩ := hret q hq
          exact ⟨h, hsub h hh, e⟩
  | free σ ret p _ hp ih =>
    rcases ih with ⟨-, -, -, -, hret⟩ | ⟨H, hI, hret⟩
    · rw [hret] at hp
      simp at hp
    · obtain ⟨h, hh, e⟩ := hret p hp
      subst e
      exact Or.inr ⟨H, (inv_xyzfree σ H h hI hh).1, hret⟩

/-- In a disciplined run every live pointer belongs to a header that is unavailable. -/
theorem disciplined_inv (σ : State) (live : List Nat) (hr : Disciplined σ live) :
    (σ.heap_start = 0 ∧ σ.heap_last_block = 0 ∧ 0 < σ.brk ∧ (∀ x, σ.brk ≤ x → σ.mem x = 0) ∧
      live = []) ∨
    ∃ H : Nat → Prop, Inv σ H ∧
      ∀ p ∈ live, ∃ h, H h ∧ p = h + METADATA_SIZE ∧ hdr_available σ.mem h = 0 := by
  induction hr with
  | start m b lim hb hz => exact Or.inl ⟨rfl, rfl, hb, hz, rfl⟩
  | malloc σ live s p σ2 _ hs hm ih =>
    rcases ih with ⟨h0, hl, hb, hz, hlive⟩ | ⟨H, hI, hlive⟩
    · obtain ⟨e1, hI2, ha⟩ := inv_first σ σ2 s p h0 hl hb hz hs hm
      refine Or.inr ⟨_, hI2, ?_⟩
      intro q hq
      have hp : p ≠ 0 := by simp only [METADATA_SIZE] at e1; omega
      rw [if_neg hp, hlive] at hq
      rw [List.mem_singleton] at hq
      exact ⟨σ.brk, rfl, hq.trans e1, ha⟩
    · obtain ⟨H2, hI2, hsub, hnew, hfr, -⟩ := inv_xyzmalloc σ σ2 H s p hI hs hm
      refine Or.inr ⟨H2, hI2, ?_⟩
      have hold : ∀ q ∈ live, ∃ h, H2 h ∧ q = h + METADATA_SIZE ∧ hdr_available σ2.mem h = 0 := by
        intro q hq
        obtain ⟨k, hk, e, ha⟩ := hlive q hq
        by_cases hkp : k + METADATA_SIZE = p
        · have hp : p ≠ 0 := by simp only [METADATA_SIZE] at hkp; omega
          obtain ⟨h, hh, e2, ha2, -⟩ := hnew hp
          exact ⟨h, hh, by rw [e, hkp, e2], ha2⟩
        · exact ⟨k, hsub k hk, e, by rw [hfr k hk hkp]; exact ha⟩
      intro q hq
      by_cases hp : p = 0
      · rw [if_pos hp] at hq
        exact hold q hq
      · rw [if_neg hp] at hq
        rcases List.mem_cons.mp hq with rfl | hq
        · obtain ⟨h, hh, e, ha, -⟩ := hnew hp
          exact ⟨h, hh, e, ha⟩
        · exact hold q hq
  | free σ live p _ hp ih =>
    rcases ih with ⟨-, -, -, -, hlive⟩ | ⟨H, hI, hlive⟩
    · rw [hlive] at hp
      simp at hp
    · obtain ⟨h, hh, e, -⟩ := hlive p hp
      subst e
      obtain ⟨hI2, hfr⟩ := inv_xyzfree σ H h hI hh
      refine Or.inr ⟨H, hI2, ?_⟩
      intro q hq
      rw [List.mem_filter] at hq
      obtain ⟨hq1, hq2⟩ := hq
      have hne : q ≠ h + METADATA_SIZE := by simpa using hq2
      obtain ⟨k, hk, e, ha⟩ := hlive q hq1
      have hkh : k ≠ h := by
        intro e2
        subst e2
        exact hne e
      exact ⟨k, hk, e, by rw [hfr k hk hkh]; exact ha⟩

/-- Along a chain through headers of the invariant every header begins after the end of
all blocks before it. -/
theorem chain_pairwise (σ : State) (H : Nat → Prop) (hI : Inv σ H) (l : List Nat) :
    ∀ a, Chain σ.mem a l → (∀ x ∈ l, H x) →
      l.Pairwise (fun h k => h + METADATA_SIZE + hdr_size σ.mem h ≤ k) ∧ ∀ x ∈ l, a ≤ x := by
  induction l with
  | nil => intro a _ _; exact ⟨List.Pairwise.nil, fun x hx => by simp at hx⟩
  | cons h t ih =>
    intro a hc hH
    obtain ⟨rfl, hne, hct⟩ := hc
    have hh : H a := hH a (List.mem_cons_self _ _)
    obtain ⟨hp, hle⟩ := ih _ hct (fun x hx => hH x (List.mem_cons_of_mem _ hx))
    have hafter : ∀ x ∈ t, a + METADATA_SIZE + hdr_size σ.mem a ≤ x := by
      intro x hx
      rcases hI.link a hh with h0 | ⟨-, hlink⟩
      · cases t with
        | nil => simp at hx
        | cons y t2 =>
          obtain ⟨e, hy, -⟩ := hct
          simp only [hdr_next] at h0
          exact absurd (e.symm.trans h0) hy
      · have := hle x hx
        simp only [hdr_next] at hlink this
        omega
    refine ⟨List.pairwise_cons.mpr ⟨hafter, hp⟩, ?_⟩
    intro x hx
    rcases List.mem_cons.mp hx with rfl | hx
    · exact Nat.le_refl _
    · have := hafter x hx
      omega

/-- Why runs are started on zero-filled memory: when the four bytes at the break hold
`0xFFFFFFFF`, the test `*flag == -1` of `extend` takes a granted request for a refusal, and
`xyzmalloc` returns `NULL` although the break has moved. -/
theorem stale_break_word_misfire :
    ∃ σ, xyzmalloc (initial (fun x => if 4096 ≤ x ∧ x < 4100 then 255 else 0) 4096 8192) 8
        = .ok (0, σ) ∧ σ.brk = 4128 ∧ σ.heap_start = 4096 :=
  ⟨_, rfl, rfl, rfl⟩

/-! ## Claims -/

/-- Claim C1 (first-fit reuse).  From the state at program start, for every request `s` and
every `d ≤ align_size s`: when three calls `xyzmalloc s` in a row succeed with `A`, `B`, `C`
and `B` is released, the next `xyzmalloc d` returns exactly `B` and does not move the break. -/
theorem first_fit_reuse (m : Mem) (b lim s d A B C : Nat) (σ1 σ2 σ3 : State)
    (hb : 0 < b) (hs : s < UINT_RANGE) (hd : d ≤ align_size s)
    (h1 : xyzmalloc (initial m b lim) s = .ok (A, σ1)) (hA : A ≠ 0)
    (h2 : xyzmalloc σ1 s = .ok (B, σ2)) (hB : B ≠ 0)
    (h3 : xyzmalloc σ2 s = .ok (C, σ3)) (hC : C ≠ 0) :
    ∃ σ4, xyzmalloc (xyzfree σ3 B) d = .ok (B, σ4) ∧ σ4.brk = (xyzfree σ3 B).brk := by
  obtain ⟨a1, a2, a3, a4⟩ := xyzmalloc_fresh _ _ _ _ rfl rfl h1 hA
  have ha := align_size_lt s hs
  have ha4 := align_size_mod s
  have hdlt : d < UINT_RANGE := by omega
  have hn := align_size_lt d hdlt
  have hn4 := align_size_mod d
  have hna : align_size d ≤ align_size s := align_size_le_of_le d _ hd ha4 ha
  clear h1
  simp only [initial, METADATA_SIZE, PTR_RANGE, UINT_RANGE, OFF_SIZE, OFF_AVAILABLE, OFF_NEXT, OFF_MAGIC,
    MAGIC_NUMBER, Nat.add_zero] at *
  norm_num at a3 ha hn
  subst a1 a4
  -- second allocation: nothing fits, the arena grows
  have hfind2 := find_slot_chain
    { mem := store32 (store64 (store32 (store32 m b (align_size s)) (b + 4) 0) (b + 8) 0) (b + 16) 83,
      brk := b + (align_size s + 24), limit := lim, heap_start := b, heap_last_block := b }
    (align_size s) [b]
    (by
      simp (disch := omega) only [Chain, OFF_NEXT, load64_store32_disj, load64_store64_eq, true_and,
        and_true]
      omega)
    (by simp [PTR_RANGE])
  simp (disch := omega) only [List.find?, hdr_available, hdr_size, OFF_AVAILABLE, OFF_SIZE, Nat.add_zero,
    load32_store32_eq, load32_store32_disj, load32_store64_disj] at hfind2
  simp only [ne_eq, not_true_eq_false, false_and, decide_False] at hfind2
  obtain ⟨b1, b2, b3⟩ := xyzmalloc_grow _ _ _ _ _ (by simp only [ne_eq]; omega) hfind2 h2 hB
  obtain ⟨-, c2, c3, c4, c5⟩ := extend_ok _ _ _ _ b2 b3
  clear h2 b2 hfind2
  simp only [METADATA_SIZE, PTR_RANGE, UINT_RANGE, OFF_SIZE, OFF_AVAILABLE, OFF_NEXT, OFF_MAGIC,
    MAGIC_NUMBER, Nat.add_zero] at b1 c2 c3 c4 c5
  norm_num at c3
  have hb0 : ¬ b = 0 := by omega
  simp only [ne_eq, hb0, not_false_eq_true, if_true] at c5
  subst b1 c5
  clear b3
  -- third allocation: again nothing fits
  have hfind3 := find_slot_chain
    { mem := store64 (store32 (store64 (store32 (store32 (store32 (store64 (store32 (store32 m b (align_size s))
        (b + 4) 0) (b + 8) 0) (b + 16) 83) (b + (align_size s + 24)) (align_size s))
        (b + (align_size s + 24) + 4) 0) (b + (align_size s + 24) + 8) 0)
        (b + (align_size s + 24) + 16) 83) (b + 8) (b + (align_size s + 24)),
      brk := b + (align_size s + 24) + (align_size s + 24), limit := lim, heap_start := b,
      heap_last_block := b + (align_size s + 24) }
    (align_size s) [b, b + (align_size s + 24)]
    (by
      simp (disch := omega) only [Chain, OFF_NEXT, load64_store32_disj, load64_store64_eq,
        load64_store64_disj, true_and, and_true]
      omega)
    (by simp [PTR_RANGE])
  simp (disch := omega) only [List.find?, hdr_available, hdr_size, OFF_AVAILABLE, OFF_SIZE, Nat.add_zero,
    load32_store32_eq, load32_store32_disj, load32_store64_disj] at hfind3
  simp only [ne_eq, not_true_eq_false, false_and, decide_False] at hfind3
  obtain ⟨d1, d2, d3⟩ := xyzmalloc_grow _ _ _ _ _ (by simp only [ne_eq]; omega) hfind3 h3 hC
  obtain ⟨-, f2, f3, f4, f5⟩ := extend_ok _ _ _ _ d2 d3
  clear h3 d2 hfind3 d3
  simp only [METADATA_SIZE, PTR_RANGE, UINT_RANGE, OFF_SIZE, OFF_AVAILABLE, OFF_NEXT, OFF_MAGIC,
    MAGIC_NUMBER, Nat.add_zero] at d1 f2 f3 f4 f5
  norm_num at f3
  have hb1 : ¬ b + (align_size s + 24) = 0 := by omega
  simp only [ne_eq, hb1, not_false_eq_true, if_true] at f5
  subst d1 f5
  -- the release of the middle block is accepted
  rw [xyzfree_accepted _ _ (by simp only [ne_eq]; omega) (by simp only; omega) (by simp only; omega)
    (by
      simp (disch := omega) only [hdr_magic, get_metadata, METADATA_SIZE, OFF_MAGIC, MAGIC_NUMBER,
        Nat.add_sub_cancel, load32_store32_eq, load32_store32_disj, load32_store64_disj])]
  simp only [get_metadata, METADATA_SIZE, Nat.add_sub_cancel, OFF_AVAILABLE]
  -- and the search stops at it
  refine Exists.imp (fun σ4 hh => ⟨hh.1, hh.2.1⟩) (xyzmalloc_reuse _ d
    [b, b + (align_size s + 24), b + (align_size s + 24) + (align_size s + 24)]
    (b + (align_size s + 24)) ?_ ?_ ?_ ?_)
  · simp only [ne_eq]; omega
  · simp (disch := omega) only [Chain, OFF_NEXT, load64_store32_disj, load64_store64_eq,
      load64_store64_disj, true_and, and_true]
    omega
  · simp [PTR_RANGE]
  · simp (disch := omega) only [List.find?, hdr_available, hdr_size, OFF_AVAILABLE, OFF_SIZE, Nat.add_zero,
      load32_store32_eq, load32_store32_disj, load32_store64_disj]
    have hfit : (1 ≠ 0 ∧ align_size s ≥ align_size d) := ⟨by omega, hna⟩
    simp only [ne_eq, not_true_eq_false, false_and, decide_False, hfit, and_self, decide_True]
    rfl

/-- Instance of `first_fit_reuse`: three blocks of 8 bytes, the middle one released, then a
request of one byte. -/
theorem first_fit_reuse_witness :
    ∃ σ1 σ2 σ3, (0 < 4096 ∧ 8 < UINT_RANGE ∧ 1 ≤ align_size 8 ∧
        xyzmalloc (initial zeroMem 4096 8192) 8 = .ok (4120, σ1) ∧ 4120 ≠ 0 ∧
        xyzmalloc σ1 8 = .ok (4152, σ2) ∧ 4152 ≠ 0 ∧
        xyzmalloc σ2 8 = .ok (4184, σ3) ∧ 4184 ≠ 0) ∧
      ∃ σ4, xyzmalloc (xyzfree σ3 4152) 1 = .ok (4152, σ4) ∧ σ4.brk = (xyzfree σ3 4152).brk :=
  ⟨_, _, _, ⟨by decide, by decide, by decide, rfl, by decide, rfl, by decide, rfl, by decide⟩,
    first_fit_reuse zeroMem 4096 8192 8 1 4120 4152 4184 _ _ _ (by decide) (by decide) (by decide)
      rfl (by decide) rfl (by decide) rfl (by decide)⟩

/-- Claim C2 (splitting on reuse).  From the state at program start, when
`align_size L > align_size s + METADATA_SIZE` and `p = xyzmalloc L` succeeds, then after
`xyzfree p` the call `xyzmalloc s` returns `p` again without moving the break; the header of
`p` now has size `align_size s`, is unavailable and links to a header at `p + align_size s`
that is available, carries `MAGIC_NUMBER`, has the positive, aligned size
`align_size L - align_size s - METADATA_SIZE`, ends the chain, and ends exactly where the
original block (the last one before the break) ended. -/
theorem split_on_reuse (m : Mem) (b lim L s p : Nat) (σ1 : State)
    (hb : 0 < b) (hL : L < UINT_RANGE) (hs : s < UINT_RANGE)
    (hgt : align_size L > align_size s + METADATA_SIZE)
    (h1 : xyzmalloc (initial m b lim) L = .ok (p, σ1)) (hp : p ≠ 0) :
    ∃ σ2, xyzmalloc (xyzfree σ1 p) s = .ok (p, σ2) ∧ σ2.brk = σ1.brk ∧
      hdr_size σ2.mem (p - METADATA_SIZE) = align_size s ∧
      hdr_available σ2.mem (p - METADATA_SIZE) = 0 ∧
      hdr_next σ2.mem (p - METADATA_SIZE) = p + align_size s ∧
      hdr_available σ2.mem (p + align_size s) = 1 ∧
      hdr_magic σ2.mem (p + align_size s) = MAGIC_NUMBER ∧
      hdr_size σ2.mem (p + align_size s) = align_size L - align_size s - METADATA_SIZE ∧
      0 < hdr_size σ2.mem (p + align_size s) ∧
      hdr_size σ2.mem (p + align_size s) % ALIGNMENT_FACTOR = 0 ∧
      hdr_next σ2.mem (p + align_size s) = 0 ∧
      (p + align_size s) + METADATA_SIZE + hdr_size σ2.mem (p + align_size s) = p + align_size L ∧
      p + align_size L = σ2.brk := by
  obtain ⟨e1, e2, e3, e4⟩ := xyzmalloc_fresh _ _ _ _ rfl rfl h1 hp
  have hA := align_size_lt L hL
  have hA4 := align_size_mod L
  have hN := align_size_lt s hs
  have hN4 := align_size_mod s
  clear h1
  simp only [initial, METADATA_SIZE, PTR_RANGE, UINT_RANGE, OFF_SIZE, OFF_AVAILABLE, OFF_NEXT, OFF_MAGIC,
    MAGIC_NUMBER, Nat.add_zero] at *
  norm_num at e3 hA hN
  subst e1
  -- the release is accepted
  have hfree : xyzfree σ1 (b + 24) = { σ1 with mem := store32 σ1.mem (b + 4) 1 } := by
    have := xyzfree_accepted σ1 (b + 24) (by rw [e4]; simp only; omega) (by rw [e4]; simp only; omega)
      (by rw [e4]; simp only; omega)
      (by
        rw [e4]
        simp (disch := omega) only [hdr_magic, get_metadata, METADATA_SIZE, OFF_MAGIC, MAGIC_NUMBER,
          Nat.add_sub_cancel, load32_store32_eq])
    simpa [get_metadata, METADATA_SIZE, OFF_AVAILABLE] using this
  rw [hfree, e4]
  simp only
  -- the search finds the released block
  have hfind := find_slot_chain
    { mem := store32 (store32 (store64 (store32 (store32 m b (align_size L)) (b + 4) 0) (b + 8) 0) (b + 16) 83)
        (b + 4) 1,
      brk := b + (align_size L + 24), limit := lim, heap_start := b, heap_last_block := b }
    (align_size s) [b]
    (by
      simp (disch := omega) only [Chain, OFF_NEXT, load64_store32_disj, load64_store64_eq, true_and,
        and_true]
      omega)
    (by simp [PTR_RANGE])
  simp (disch := omega) only [List.find?, hdr_available, hdr_size, OFF_AVAILABLE, OFF_SIZE, Nat.add_zero,
    load32_store32_eq, load32_store32_disj, load32_store64_disj] at hfind
  have hfit : (1 ≠ 0 ∧ align_size L ≥ align_size s) := ⟨by omega, by omega⟩
  simp only [hfit, and_self, decide_True] at hfind
  have hsplit := xyzmalloc_reuse_split _ _ s b (by simp only [ne_eq]; omega) hfind (by omega)
    (by
      simp (disch := omega) only [hdr_size, OFF_SIZE, Nat.add_zero, METADATA_SIZE,
        load32_store32_eq, load32_store32_disj, load32_store64_disj]
      omega)
  rw [hsplit]
  refine ⟨_, rfl, rfl, ?_⟩
  simp (disch := omega) only [divide_slot, hdr_size, hdr_available, hdr_next, hdr_magic, METADATA_SIZE, OFF_SIZE,
    OFF_AVAILABLE, OFF_NEXT, OFF_MAGIC, MAGIC_NUMBER, UINT_RANGE, ALIGNMENT_FACTOR, Nat.add_zero,
    Nat.add_sub_cancel,
    load32_store32_eq, load32_store32_disj, load32_store64_disj, load64_store32_disj, load64_store64_eq,
    load64_store64_disj]
  refine ⟨trivial, trivial, trivial, trivial, trivial, ?_, ?_, ?_, trivial, ?_, ?_⟩ <;> omega

/-- Instance of `split_on_reuse`: a block of 100 bytes released and reused for 4 bytes. -/
theorem split_on_reuse_witness :
    ∃ σ1, (0 < 4096 ∧ 100 < UINT_RANGE ∧ 4 < UINT_RANGE ∧
        align_size 100 > align_size 4 + METADATA_SIZE ∧
        xyzmalloc (initial zeroMem 4096 8192) 100 = .ok (4120, σ1) ∧ 4120 ≠ 0) ∧
      ∃ σ2, xyzmalloc (xyzfree σ1 4120) 4 = .ok (4120, σ2) ∧ σ2.brk = σ1.brk ∧
        hdr_size σ2.mem (4120 - METADATA_SIZE) = align_size 4 ∧
        hdr_available σ2.mem (4120 - METADATA_SIZE) = 0 ∧
        hdr_next σ2.mem (4120 - METADATA_SIZE) = 4120 + align_size 4 ∧
        hdr_available σ2.mem (4120 + align_size 4) = 1 ∧
        hdr_magic σ2.mem (4120 + align_size 4) = MAGIC_NUMBER ∧
        hdr_size σ2.mem (4120 + align_size 4) = align_size 100 - align_size 4 - METADATA_SIZE ∧
        0 < hdr_size σ2.mem (4120 + align_size 4) ∧
        hdr_size σ2.mem (4120 + align_size 4) % ALIGNMENT_FACTOR = 0 ∧
        hdr_next σ2.mem (4120 + align_size 4) = 0 ∧
        (4120 + align_size 4) + METADATA_SIZE + hdr_size σ2.mem (4120 + align_size 4)
          = 4120 + align_size 100 ∧
        4120 + align_size 100 = σ2.brk :=
  ⟨_, ⟨by decide, by decide, by decide, by decide, rfl, by decide⟩,
    split_on_reuse zeroMem 4096 8192 100 4 4120 _ (by decide) (by decide) (by decide) (by decide)
      rfl (by decide)⟩

/-- Claim C3, evaluated at `s = 0`: two calls `xyzmalloc 0` on a fresh arena succeed with
`x` and `y`; after `xyzfree x` and `xyzfree y` the header of `x` is available but the header
of `y` is not, because `y` equals the break and fails the range test of `xyzfree`. -/
theorem release_both_zero_size :
    ∃ x y σ1 σ2, xyzmalloc (initial zeroMem 4096 8192) 0 = .ok (x, σ1) ∧ x ≠ 0 ∧
      xyzmalloc σ1 0 = .ok (y, σ2) ∧ y ≠ 0 ∧
      hdr_available (xyzfree (xyzfree σ2 x) y).mem (get_metadata x) = 1 ∧
      hdr_available (xyzfree (xyzfree σ2 x) y).mem (get_metadata y) = 0 :=
  ⟨4120, 4144, _, _, rfl, by decide, rfl, by decide, by decide, by decide⟩

/-- Claim C4, evaluated on blocks of 524288 bytes: the second allocation succeeds although
its block ends beyond `heap_start + MEM_BUFFER`, the arena is then longer than `MEM_BUFFER`,
and only the third call returns `NULL`. -/
theorem ceiling_exceeded :
    ∃ p1 p2 σ1 σ2 σ3, xyzmalloc (initial zeroMem 4096 4198400) 524288 = .ok (p1, σ1) ∧ p1 ≠ 0 ∧
      xyzmalloc σ1 524288 = .ok (p2, σ2) ∧ p2 ≠ 0 ∧
      σ2.brk - σ2.heap_start > MEM_BUFFER ∧
      p2 + 524288 > σ2.heap_start + MEM_BUFFER ∧
      xyzmalloc σ2 524288 = .ok (0, σ3) :=
  ⟨4120, 528432, _, _, _, rfl, by decide, rfl, by decide, by decide, by decide, rfl⟩

/-- Claim C5 (clean out-of-memory).  On an initialised arena whose chain holds no available
block of size at least `align_size s` and whose length exceeds `MEM_BUFFER`, `xyzmalloc s`
returns `NULL` and the whole state (memory, break, globals) is unchanged. -/
theorem out_of_memory_clean_null (σ : State) (s : Nat) (l : List Nat) (h0 : σ.heap_start ≠ 0)
    (hptr : σ.heap_start < PTR_RANGE)
    (hc : Chain σ.mem σ.heap_start l)
    (hnofit : ∀ h ∈ l, ¬ (hdr_available σ.mem h ≠ 0 ∧ hdr_size σ.mem h ≥ align_size s))
    (hfull : σ.brk - σ.heap_start > MEM_BUFFER) :
    xyzmalloc σ s = .ok (0, σ) := by
  have hf := find_slot_chain σ (align_size s) l hc (chain_length_lt _ _ _ hptr hc)
  have hnone : l.find? (fun h => decide (hdr_available σ.mem h ≠ 0 ∧ hdr_size σ.mem h ≥ align_size s))
      = none := by
    rw [List.find?_eq_none]
    intro h hh
    simpa using hnofit h hh
  rw [hnone] at hf
  simp only at hf
  have hle : σ.heap_start ≤ σ.brk := by omega
  have hcond : (σ.brk : Int) - (σ.heap_start : Int) > (MEM_BUFFER : Int) := by
    omega
  unfold xyzmalloc
  simp only [h0, ne_eq, not_false_eq_true, if_true, hf, not_true_eq_false, if_false, extend, hcond]

/-- Instance of `out_of_memory_clean_null`: an arena holding one block of 2 MiB in use. -/
theorem out_of_memory_clean_null_witness :
    ∃ p σ, xyzmalloc (initial zeroMem 4096 8388608) 2097152 = .ok (p, σ) ∧
      (σ.heap_start ≠ 0 ∧ σ.heap_start < PTR_RANGE ∧ Chain σ.mem σ.heap_start [4096] ∧
        (∀ h ∈ [4096], ¬ (hdr_available σ.mem h ≠ 0 ∧ hdr_size σ.mem h ≥ align_size 8)) ∧
        σ.brk - σ.heap_start > MEM_BUFFER) ∧
      xyzmalloc σ 8 = .ok (0, σ) :=
  ⟨4120, _, rfl, ⟨by decide, by decide, by decide, by decide, by decide⟩,
    out_of_memory_clean_null _ 8 [4096] (by decide) (by decide) (by decide) (by decide) (by decide)⟩

/-- Claim C6, as the code behaves: when `xyzmalloc` gets as far as `extend` (fresh arena, or
no block fits and the ceiling test passes) and `sbrk` refuses the request, the call does not
return `NULL`: it reads through `(void*)-1`. -/
theorem sbrk_denial_faults (σ : State) (s : Nat)
    (hreach : σ.heap_start = 0 ∨
      (σ.heap_start ≠ 0 ∧ find_slot σ (align_size s) = .ok (0, σ) ∧
        ¬ ((σ.brk : Int) - (σ.heap_start : Int) > (MEM_BUFFER : Int))))
    (hden : (sbrk σ (align_size s + METADATA_SIZE)).1 = SBRK_FAILED) :
    xyzmalloc σ s = .error Fault.segfault := by
  rcases hreach with h0 | ⟨h0, hf, hceil⟩
  · have hden2 : (sbrk { σ with heap_start := σ.brk } (align_size s + METADATA_SIZE)).1
        = SBRK_FAILED := by
      unfold sbrk at hden ⊢
      simp only at hden ⊢
      split
      · rename_i hg
        rw [if_pos hg] at hden
        exact hden
      · rfl
    have he := extend_denied { σ with heap_start := σ.brk } (align_size s) (by simp) hden2
    unfold xyzmalloc
    simp only [h0, ne_eq, not_true_eq_false, if_false, he]
  · have he := extend_denied σ (align_size s) hceil hden
    unfold xyzmalloc
    simp only [h0, ne_eq, not_false_eq_true, if_true, hf, not_true_eq_false, if_false, he]

/-- Instance of `sbrk_denial_faults`: a fresh arena whose break is already at the limit. -/
theorem sbrk_denial_faults_witness :
    ((initial zeroMem 4096 4096).heap_start = 0 ∧
      (sbrk (initial zeroMem 4096 4096) (align_size 8 + METADATA_SIZE)).1 = SBRK_FAILED) ∧
    xyzmalloc (initial zeroMem 4096 4096) 8 = .error Fault.segfault :=
  ⟨⟨rfl, by decide⟩, sbrk_denial_faults (initial zeroMem 4096 4096) 8 (Or.inl rfl) (by decide)⟩

/-- Claim C7 (foreign pointers).  When `heap_start` is `NULL`, or the pointer lies below
`heap_start` or at or above the break, `xyzfree` returns the state it was given. -/
theorem xyzfree_foreign_noop (σ : State) (p : Nat)
    (h : σ.heap_start = 0 ∨ p < σ.heap_start ∨ σ.brk ≤ p) : xyzfree σ p = σ := by
  unfold xyzfree
  by_cases h0 : σ.heap_start = 0
  · rw [if_pos h0]
  · rw [if_neg h0, if_neg]
    omega

/-- Instance of `xyzfree_foreign_noop`: a pointer below `heap_start`. -/
theorem xyzfree_foreign_noop_witness :
    ∃ p σ, xyzmalloc (initial zeroMem 4096 8192) 8 = .ok (p, σ) ∧
      (σ.heap_start = 0 ∨ 4000 < σ.heap_start ∨ σ.brk ≤ 4000) ∧ xyzfree σ 4000 = σ :=
  ⟨4120, _, rfl, by decide, xyzfree_foreign_noop _ 4000 (by decide)⟩

/-- Claim C8 fails as stated: after `p = xyzmalloc 16` the caller stores the value 83 in bytes
4 to 7 of its block; `p + 12` lies inside the arena and is no header boundary, yet
`xyzfree (p + 12)` overwrites the `magic_number` field of the header of `p` with 1. -/
theorem xyzfree_interior_pointer_alters_header :
    ∃ p σ, xyzmalloc (initial zeroMem 4096 8192) 16 = .ok (p, σ) ∧ p ≠ 0 ∧
      σ.heap_start ≠ 0 ∧ Chain σ.mem σ.heap_start [4096] ∧
      p + 4 + 4 ≤ p + hdr_size σ.mem 4096 ∧
      Chain (callerStore32 σ (p + 4) MAGIC_NUMBER).mem σ.heap_start [4096] ∧
      σ.heap_start ≤ p + 12 ∧ p + 12 < σ.brk ∧
      (∀ h ∈ [4096], p + 12 ≠ h + METADATA_SIZE) ∧
      hdr_magic (callerStore32 σ (p + 4) MAGIC_NUMBER).mem 4096 = MAGIC_NUMBER ∧
      hdr_magic (xyzfree (callerStore32 σ (p + 4) MAGIC_NUMBER) (p + 12)).mem 4096 = 1 :=
  ⟨4120, _, rfl, by decide, by decide, by decide, by decide, by decide, by decide, by decide, by decide,
    by decide, by decide⟩

/-- Claim C8, amended: whatever the pointer, `xyzfree` changes nothing at all when the
`unsigned int` it reads as `magic_number`, at `ptr - METADATA_SIZE + 16`, differs from
`MAGIC_NUMBER`. -/
theorem xyzfree_tag_mismatch_noop (σ : State) (p : Nat)
    (h : hdr_magic σ.mem (get_metadata p) ≠ MAGIC_NUMBER) : xyzfree σ p = σ := by
  unfold xyzfree
  simp only [hdr_magic] at h
  simp only [h, if_false, ite_self]

/-- Instance of `xyzfree_tag_mismatch_noop`: the same interior pointer, the block left as
allocated. -/
theorem xyzfree_tag_mismatch_noop_witness :
    ∃ p σ, xyzmalloc (initial zeroMem 4096 8192) 16 = .ok (p, σ) ∧
      hdr_magic σ.mem (get_metadata (p + 12)) ≠ MAGIC_NUMBER ∧ xyzfree σ (p + 12) = σ :=
  ⟨4120, _, rfl, by decide, xyzfree_tag_mismatch_noop _ _ (by decide)⟩

/-- Claim C9, evaluated on the pointer returned by `xyzmalloc 0` on a fresh arena: after one,
two and three calls of `xyzfree` the `available` field of its header is still 0. -/
theorem repeated_release_zero_size :
    ∃ p σ, xyzmalloc (initial zeroMem 4096 8192) 0 = .ok (p, σ) ∧ p ≠ 0 ∧
      hdr_available (xyzfree σ p).mem (get_metadata p) = 0 ∧
      hdr_available (xyzfree (xyzfree σ p) p).mem (get_metadata p) = 0 ∧
      hdr_available (xyzfree (xyzfree (xyzfree σ p) p) p).mem (get_metadata p) = 0 :=
  ⟨4120, _, rfl, by decide, by decide, by decide, by decide⟩

/-- Claim C10, evaluated on the pointer returned by `xyzmalloc 0` on a fresh arena: its header
carries `MAGIC_NUMBER`, but `xyzfree` returns the state unchanged and the `available` field
stays 0. -/
theorem release_zero_size_ignored :
    ∃ p σ, xyzmalloc (initial zeroMem 4096 8192) 0 = .ok (p, σ) ∧ p ≠ 0 ∧
      hdr_magic σ.mem (get_metadata p) = MAGIC_NUMBER ∧
      xyzfree σ p = σ ∧ hdr_available (xyzfree σ p).mem (get_metadata p) = 0 :=
  ⟨4120, _, rfl, by decide, by decide, rfl, by decide⟩

/-- Claim C11, evaluated at the largest `unsigned int`: the sum `size + ALIGNMENT_FACTOR` wraps
and `align_size` returns 0, which is smaller than the request. -/
theorem align_size_wraps :
    4294967295 < UINT_RANGE ∧ align_size 4294967295 = 0 ∧ ¬ (align_size 4294967295 ≥ 4294967295) := by
  decide

/-- Claim C12.  For every `s` the result of `align_size` is a multiple of `ALIGNMENT_FACTOR`,
a multiple of `ALIGNMENT_FACTOR` is returned unchanged, and `align_size` is idempotent. -/
theorem align_size_multiple_fixed_idempotent (s : Nat) :
    align_size s % ALIGNMENT_FACTOR = 0 ∧
    (s % ALIGNMENT_FACTOR = 0 → align_size s = s) ∧
    align_size (align_size s) = align_size s := by
  have hfix : ∀ t : Nat, t % ALIGNMENT_FACTOR = 0 → align_size t = t := by
    intro t h
    unfold align_size
    rw [if_neg (by simpa using h)]
  have hm : align_size s % ALIGNMENT_FACTOR = 0 := align_size_mod s
  exact ⟨hm, hfix s, hfix _ hm⟩

/-- Instance of `align_size_multiple_fixed_idempotent` at the requests 5 and 8. -/
theorem align_size_multiple_fixed_idempotent_witness :
    (align_size 5 % ALIGNMENT_FACTOR = 0 ∧ align_size (align_size 5) = align_size 5) ∧
    (8 % ALIGNMENT_FACTOR = 0 ∧ align_size 8 = 8) :=
  ⟨⟨(align_size_multiple_fixed_idempotent 5).1, (align_size_multiple_fixed_idempotent 5).2.2⟩,
    by decide, (align_size_multiple_fixed_idempotent 8).2.1 (by decide)⟩

/-- Claim C13, evaluated: a block of 100 bytes is released and reused for 4 bytes, which
splits it and leaves a free remainder header at 4124 in the chain; the next growth links the
new block behind the stale `heap_last_block` 4096, and the remainder, still a free header with
its tag, is no longer reachable from `heap_start`. -/
theorem split_remainder_unlinked :
    ∃ σ1 σ2 σ3, xyzmalloc (initial zeroMem 4096 16384) 100 = .ok (4120, σ1) ∧
      xyzmalloc (xyzfree σ1 4120) 4 = .ok (4120, σ2) ∧
      xyzmalloc σ2 200 = .ok (4244, σ3) ∧
      σ2.heap_last_block = 4096 ∧
      Chain σ2.mem σ2.heap_start [4096, 4124] ∧
      Chain σ3.mem σ3.heap_start [4096, 4220] ∧
      4124 ∈ [4096, 4124] ∧ 4124 ∉ [4096, 4220] ∧
      hdr_available σ3.mem 4124 = 1 ∧ hdr_magic σ3.mem 4124 = MAGIC_NUMBER ∧
      hdr_size σ3.mem 4124 = 72 :=
  ⟨_, _, _, rfl, rfl, rfl, by decide, by decide, by decide, by decide, by decide, by decide,
    by decide, by decide⟩

/-- Claim C14, evaluated at `s = 0`: after `xyzmalloc 0` on a fresh arena the chain consists
of one header whose `size` is 0. -/
theorem zero_size_header :
    ∃ p σ, xyzmalloc (initial zeroMem 4096 8192) 0 = .ok (p, σ) ∧ p ≠ 0 ∧
      Chain σ.mem σ.heap_start [4096] ∧ hdr_size σ.mem 4096 = 0 ∧ ¬ (0 < hdr_size σ.mem 4096) :=
  ⟨4120, _, rfl, by decide, by decide, by decide, by decide⟩

/-- Claim C15 (chain well-formedness).  In every state reached from program start by calls
of `xyzmalloc` and by calls of `xyzfree` on pointers returned before, the headers met from
`heap_start` form a finite list without repetition that begins at `heap_start`; every one
of them carries `MAGIC_NUMBER`, lies at or after `heap_start`, ends at or before the break
and ends at or before its successor; and every header of the list begins at or after the
end of every block before it, so that addresses ascend strictly and no two blocks overlap. -/
theorem chain_well_formed (σ : State) (ret : List Nat) (hr : Reach σ ret) :
    ∃ l, Chain σ.mem σ.heap_start l ∧
      (σ.heap_start ≠ 0 → l.head? = some σ.heap_start) ∧
      (∀ h ∈ l, hdr_magic σ.mem h = MAGIC_NUMBER ∧ σ.heap_start ≤ h ∧
        h + METADATA_SIZE + hdr_size σ.mem h ≤ σ.brk ∧
        (hdr_next σ.mem h ≠ 0 → h + METADATA_SIZE + hdr_size σ.mem h ≤ hdr_next σ.mem h)) ∧
      l.Pairwise (fun h k => h + METADATA_SIZE + hdr_size σ.mem h ≤ k) ∧
      l.Pairwise (fun h k => h < k) ∧ l.Nodup := by
  rcases reach_inv σ ret hr with ⟨h0, -, -, -, -⟩ | ⟨H, hI, -⟩
  · refine ⟨[], ?_, fun hne => absurd h0 hne, fun h hh => by simp at hh, List.Pairwise.nil,
      List.Pairwise.nil, List.nodup_nil⟩
    exact h0
  · obtain ⟨l, hc, hl⟩ := chain_of_inv_start σ H hI
    obtain ⟨hp, -⟩ := chain_pairwise σ H hI l _ hc hl
    refine ⟨l, hc, ?_, ?_, hp, ?_, chain_nodup _ _ _ hc⟩
    · intro _
      cases l with
      | nil =>
        have hpos := hI.start_pos
        have : σ.heap_start = 0 := hc
        omega
      | cons x t =>
        obtain ⟨e, -, -⟩ := hc
        simp only [List.head?, e]
    · intro h hh
      have hb := hI.block h (hl h hh)
      refine ⟨hb.2.2.1, hb.1, hb.2.1, ?_⟩
      intro hne
      rcases hI.link h (hl h hh) with h0 | ⟨-, hle⟩
      · exact absurd h0 hne
      · exact hle
    · refine hp.imp ?_
      intro a b hab
      simp only [METADATA_SIZE] at hab
      omega

/-- Instance of `chain_well_formed`: the run that allocates 100 bytes, releases them and
allocates 4 bytes. -/
theorem chain_well_formed_witness :
    ∃ σ1 σ2, xyzmalloc (initial zeroMem 4096 8192) 100 = .ok (4120, σ1) ∧
      xyzmalloc (xyzfree σ1 4120) 4 = .ok (4120, σ2) ∧
      Reach σ2 [4120, 4120] ∧
      ∃ l, Chain σ2.mem σ2.heap_start l ∧
        (σ2.heap_start ≠ 0 → l.head? = some σ2.heap_start) ∧
        (∀ h ∈ l, hdr_magic σ2.mem h = MAGIC_NUMBER ∧ σ2.heap_start ≤ h ∧
          h + METADATA_SIZE + hdr_size σ2.mem h ≤ σ2.brk ∧
          (hdr_next σ2.mem h ≠ 0 → h + METADATA_SIZE + hdr_size σ2.mem h ≤ hdr_next σ2.mem h)) ∧
        l.Pairwise (fun h k => h + METADATA_SIZE + hdr_size σ2.mem h ≤ k) ∧
        l.Pairwise (fun h k => h < k) ∧ l.Nodup :=
  have r0 : Reach (initial zeroMem 4096 8192) [] :=
    Reach.start zeroMem 4096 8192 (by decide) (fun _ _ => rfl)
  have r1 := Reach.malloc _ _ 100 4120 _ r0 (by decide) rfl
  have r2 := Reach.free _ _ 4120 r1 (List.mem_cons_self _ _)
  have r3 := Reach.malloc _ _ 4 4120 _ r2 (by decide) rfl
  ⟨_, _, rfl, rfl, r3, chain_well_formed _ _ r3⟩

/-- Growth on the states of a run, where the memory above the break is still zero-filled:
when the arena is uninitialised
or no header of its chain is available with size at least `align_size s`, the length of an
initialised arena is at most `MEM_BUFFER` and `sbrk` grants the request, `xyzmalloc s` returns
the old break plus `METADATA_SIZE`; the break advances by `align_size s + METADATA_SIZE`; the
header at the old break has size `align_size s`, is unavailable, has a `NULL` link and
carries `MAGIC_NUMBER`; `heap_last_block` becomes that header and a previous
`heap_last_block` links to it; `heap_start` is set to the old break on an uninitialised
arena and kept otherwise; and no byte of memory changes outside the 20 bytes of fields of the
new header and the `next_block` field of the previous `heap_last_block`. -/
theorem growth_postcondition (σ : State) (ret : List Nat) (s : Nat) (l : List Nat)
    (hr : Reach σ ret) (hs : s < UINT_RANGE)
    (hc : Chain σ.mem σ.heap_start l)
    (hnofit : ∀ h ∈ l, ¬ (hdr_available σ.mem h ≠ 0 ∧ hdr_size σ.mem h ≥ align_size s))
    (hceil : σ.heap_start ≠ 0 → σ.brk - σ.heap_start ≤ MEM_BUFFER)
    (hgrant : (sbrk σ (align_size s + METADATA_SIZE)).1 ≠ SBRK_FAILED) :
    ∃ σ2, xyzmalloc σ s = .ok (σ.brk + METADATA_SIZE, σ2) ∧
      σ2.brk = σ.brk + (align_size s + METADATA_SIZE) ∧
      hdr_size σ2.mem σ.brk = align_size s ∧ hdr_available σ2.mem σ.brk = 0 ∧
      hdr_next σ2.mem σ.brk = 0 ∧ hdr_magic σ2.mem σ.brk = MAGIC_NUMBER ∧
      σ2.heap_last_block = σ.brk ∧
      (σ.heap_last_block ≠ 0 → hdr_next σ2.mem σ.heap_last_block = σ.brk) ∧
      σ2.heap_start = (if σ.heap_start = 0 then σ.brk else σ.heap_start) ∧
      ∀ x, (x < σ.brk ∨ σ.brk + 20 ≤ x) →
        (σ.heap_last_block = 0 ∨ x < σ.heap_last_block + OFF_NEXT ∨
          σ.heap_last_block + OFF_NEXT + 8 ≤ x) →
        σ2.mem x = σ.mem x := by
  have hn := align_size_lt s hs
  simp only [UINT_RANGE] at hn
  norm_num at hn
  have hg : σ.brk + (align_size s + METADATA_SIZE) ≤ σ.limit ∧
      σ.brk + (align_size s + METADATA_SIZE) < PTR_RANGE := by
    by_contra hng
    apply hgrant
    unfold sbrk
    rw [if_neg hng]
  rcases reach_inv σ ret hr with ⟨h0, hl, hb, hz, -⟩ | ⟨H, hI, -⟩
  · -- uninitialised arena
    obtain ⟨σ2, he⟩ := extend_granted { σ with heap_start := σ.brk } (align_size s) hz
      (by
        simp only [sub_self, gt_iff_lt, not_lt]
        exact Int.ofNat_nonneg _) hg
    simp only at he
    have hbne : σ.brk ≠ 0 := by omega
    obtain ⟨-, e2, -, -, -, e6, e7, g1, g2, g3, g4, gl, fr⟩ :=
      extend_spec _ _ _ _ he hbne hn (Or.inl hl)
    simp only at e2 e6 e7 g1 g2 g3 g4 gl fr
    refine ⟨σ2, ?_, e2, g1, g2, g3, g4, e7, gl, by rw [if_pos h0]; exact e6, ?_⟩
    · rw [xyzmalloc_unfold_fresh σ s h0, he]
      simp only [hbne, if_false]
    · intro x hx hx2
      simp only [OFF_NEXT] at hx2
      exact fr x hx hx2
  · -- initialised arena without a fitting block
    have hpos := hI.start_pos
    have h0 : σ.heap_start ≠ 0 := by omega
    have hbs := hI.block _ hI.start_mem
    have hbl := hI.block _ hI.last_mem
    have hbrk := hI.brk_lt
    simp only [METADATA_SIZE] at hbs hbl
    have hptr : σ.heap_start < PTR_RANGE := by omega
    have hf := find_slot_chain σ (align_size s) l hc (chain_length_lt _ _ _ hptr hc)
    have hnone : l.find? (fun h => decide (hdr_available σ.mem h ≠ 0 ∧ hdr_size σ.mem h ≥ align_size s))
        = none := by
      rw [List.find?_eq_none]
      intro h hh
      simpa using hnofit h hh
    rw [hnone] at hf
    simp only at hf
    have hc2 : ¬ ((σ.brk : Int) - (σ.heap_start : Int) > (MEM_BUFFER : Int)) := by
      have := hceil h0
      omega
    obtain ⟨σ2, he⟩ := extend_granted σ (align_size s) hI.fresh hc2 hg
    have hbne : σ.brk ≠ 0 := by omega
    obtain ⟨-, e2, -, -, -, e6, e7, g1, g2, g3, g4, gl, fr⟩ :=
      extend_spec _ _ _ _ he hbne hn (Or.inr (by omega))
    refine ⟨σ2, ?_, e2, g1, g2, g3, g4, e7, gl, by rw [if_neg h0]; exact e6, ?_⟩
    · rw [xyzmalloc_unfold_nofit σ σ s h0 hf, he]
      simp only [hbne, if_false]
    · intro x hx hx2
      simp only [OFF_NEXT] at hx2
      exact fr x hx hx2

/-- Instance of `growth_postcondition`: the second allocation of 8 bytes. -/
theorem growth_postcondition_witness :
    ∃ σ1, xyzmalloc (initial zeroMem 4096 8192) 8 = .ok (4120, σ1) ∧
      (Reach σ1 [4120] ∧ 8 < UINT_RANGE ∧ Chain σ1.mem σ1.heap_start [4096] ∧
        (∀ h ∈ [4096], ¬ (hdr_available σ1.mem h ≠ 0 ∧ hdr_size σ1.mem h ≥ align_size 8)) ∧
        (σ1.heap_start ≠ 0 → σ1.brk - σ1.heap_start ≤ MEM_BUFFER) ∧
        (sbrk σ1 (align_size 8 + METADATA_SIZE)).1 ≠ SBRK_FAILED) ∧
      ∃ σ2, xyzmalloc σ1 8 = .ok (σ1.brk + METADATA_SIZE, σ2) ∧
        σ2.brk = σ1.brk + (align_size 8 + METADATA_SIZE) ∧
        hdr_size σ2.mem σ1.brk = align_size 8 ∧ hdr_available σ2.mem σ1.brk = 0 ∧
        hdr_next σ2.mem σ1.brk = 0 ∧ hdr_magic σ2.mem σ1.brk = MAGIC_NUMBER ∧
        σ2.heap_last_block = σ1.brk ∧
        (σ1.heap_last_block ≠ 0 → hdr_next σ2.mem σ1.heap_last_block = σ1.brk) ∧
        σ2.heap_start = (if σ1.heap_start = 0 then σ1.brk else σ1.heap_start) ∧
        ∀ x, (x < σ1.brk ∨ σ1.brk + 20 ≤ x) →
          (σ1.heap_last_block = 0 ∨ x < σ1.heap_last_block + OFF_NEXT ∨
            σ1.heap_last_block + OFF_NEXT + 8 ≤ x) →
          σ2.mem x = σ1.mem x :=
  have r0 : Reach (initial zeroMem 4096 8192) [] :=
    Reach.start zeroMem 4096 8192 (by decide) (fun _ _ => rfl)
  have r1 := Reach.malloc _ _ 8 4120 _ r0 (by decide) rfl
  ⟨_, rfl, ⟨r1, by decide, by decide, by decide, by decide, by decide⟩,
    growth_postcondition _ _ 8 [4096] r1 (by decide) (by decide) (by decide) (by decide) (by decide)⟩

/-- Claim C16, evaluated on arenas whose four bytes at the break hold `0xFFFFFFFF`.  On the
uninitialised arena, and on the arena initialised by one allocation of 8 bytes whose only
block is in use, every condition of the claim holds for a request of 8 bytes: the length is
at most `MEM_BUFFER` and `sbrk` grants the request.  Yet `xyzmalloc` returns `NULL`: the break
has advanced by 32 bytes, no header was written at the old break and `heap_last_block` is
what it was. -/
theorem growth_refused_on_stale_word :
    (∃ σ, (initial (fun x => if 4096 ≤ x ∧ x < 4100 then 255 else 0) 4096 8192).heap_start = 0 ∧
      (sbrk (initial (fun x => if 4096 ≤ x ∧ x < 4100 then 255 else 0) 4096 8192)
        (align_size 8 + METADATA_SIZE)).1 ≠ SBRK_FAILED ∧
      xyzmalloc (initial (fun x => if 4096 ≤ x ∧ x < 4100 then 255 else 0) 4096 8192) 8
        = .ok (0, σ) ∧
      σ.brk = 4096 + (align_size 8 + METADATA_SIZE) ∧
      hdr_magic σ.mem 4096 ≠ MAGIC_NUMBER ∧ σ.heap_last_block = 0) ∧
    (∃ σ1 σ2,
      xyzmalloc (initial (fun x => if 4128 ≤ x ∧ x < 4132 then 255 else 0) 4096 8192) 8
        = .ok (4120, σ1) ∧
      σ1.heap_start ≠ 0 ∧ Chain σ1.mem σ1.heap_start [4096] ∧
      (∀ h ∈ [4096], ¬ (hdr_available σ1.mem h ≠ 0 ∧ hdr_size σ1.mem h ≥ align_size 8)) ∧
      σ1.brk - σ1.heap_start ≤ MEM_BUFFER ∧
      (sbrk σ1 (align_size 8 + METADATA_SIZE)).1 ≠ SBRK_FAILED ∧
      xyzmalloc σ1 8 = .ok (0, σ2) ∧
      σ2.brk = σ1.brk + (align_size 8 + METADATA_SIZE) ∧
      hdr_magic σ2.mem σ1.brk ≠ MAGIC_NUMBER ∧ σ2.heap_last_block = σ1.heap_last_block ∧
      hdr_next σ2.mem σ1.heap_last_block = 0) :=
  ⟨⟨_, rfl, by decide, rfl, by decide, by decide, rfl⟩,
    ⟨_, _, rfl, by decide, by decide, by decide, by decide, by decide, rfl, by decide, by decide,
      by decide, by decide⟩⟩

/-- Claim C17 (`find_slot` is first-fit).  On a finite chain rooted at `heap_start`:
when `h` is the first header of the chain that is available with size at least `n`,
`find_slot` returns `h`, clears its `available` field and writes no other byte of memory, so
that the other three fields of `h` and every field of every other header keep their values;
`find_slot` returns `NULL` exactly when no header of the chain fits, and then returns the state
unchanged. -/
theorem find_slot_first_fit (σ : State) (n : Nat) (l : List Nat)
    (hptr : σ.heap_start < PTR_RANGE) (hc : Chain σ.mem σ.heap_start l) :
    (∀ pre h post, l = pre ++ h :: post →
      (∀ x ∈ pre, ¬ (hdr_available σ.mem x ≠ 0 ∧ hdr_size σ.mem x ≥ n)) →
      (hdr_available σ.mem h ≠ 0 ∧ hdr_size σ.mem h ≥ n) →
      h ≠ 0 ∧
      find_slot σ n = .ok (h, { σ with mem := store32 σ.mem (h + OFF_AVAILABLE) 0 }) ∧
      hdr_available (store32 σ.mem (h + OFF_AVAILABLE) 0) h = 0 ∧
      hdr_size (store32 σ.mem (h + OFF_AVAILABLE) 0) h = hdr_size σ.mem h ∧
      hdr_next (store32 σ.mem (h + OFF_AVAILABLE) 0) h = hdr_next σ.mem h ∧
      hdr_magic (store32 σ.mem (h + OFF_AVAILABLE) 0) h = hdr_magic σ.mem h ∧
      ∀ x, (x < h + OFF_AVAILABLE ∨ h + OFF_AVAILABLE + 4 ≤ x) →
        store32 σ.mem (h + OFF_AVAILABLE) 0 x = σ.mem x) ∧
    ((∃ σ', find_slot σ n = .ok (0, σ')) ↔
      ∀ h ∈ l, ¬ (hdr_available σ.mem h ≠ 0 ∧ hdr_size σ.mem h ≥ n)) ∧
    ((∀ h ∈ l, ¬ (hdr_available σ.mem h ≠ 0 ∧ hdr_size σ.mem h ≥ n)) →
      find_slot σ n = .ok (0, σ)) := by
  have hlen := chain_length_lt _ _ _ hptr hc
  have hf := find_slot_chain σ n l hc hlen
  have hnone : (∀ h ∈ l, ¬ (hdr_available σ.mem h ≠ 0 ∧ hdr_size σ.mem h ≥ n)) →
      find_slot σ n = .ok (0, σ) := by
    intro hno
    have : l.find? (fun h => decide (hdr_available σ.mem h ≠ 0 ∧ hdr_size σ.mem h ≥ n)) = none := by
      rw [List.find?_eq_none]
      intro h hh
      simpa using hno h hh
    rw [this] at hf
    exact hf
  refine ⟨?_, ⟨?_, fun hno => ⟨σ, hnone hno⟩⟩, hnone⟩
  · intro pre h post hl hpre hfit
    have hfind : l.find? (fun h => decide (hdr_available σ.mem h ≠ 0 ∧ hdr_size σ.mem h ≥ n))
        = some h := by
      rw [hl]
      apply find?_first
      · intro x hx
        exact decide_eq_false (hpre x hx)
      · exact decide_eq_true hfit
    rw [hfind] at hf
    have hne : h ≠ 0 := chain_ne_zero _ _ _ hc h (by rw [hl]; simp)
    refine ⟨hne, hf, ?_, ?_, ?_, ?_, ?_⟩
    · simp only [hdr_available]
      exact load32_store32_same _ _ _ (by decide)
    · simp only [hdr_size, OFF_SIZE, OFF_AVAILABLE]
      exact load32_store32_disj _ _ _ _ (by omega)
    · simp only [hdr_next, OFF_NEXT, OFF_AVAILABLE]
      exact load64_store32_disj _ _ _ _ (by omega)
    · simp only [hdr_magic, OFF_MAGIC, OFF_AVAILABLE]
      exact load32_store32_disj _ _ _ _ (by omega)
    · intro x hx
      exact storeBytes_other _ _ _ _ _ hx
  · rintro ⟨σ', hσ⟩
    intro h hh hfit
    cases hfd : l.find? (fun h => decide (hdr_available σ.mem h ≠ 0 ∧ hdr_size σ.mem h ≥ n)) with
    | none =>
      rw [List.find?_eq_none] at hfd
      exact absurd (decide_eq_true hfit) (by simpa using hfd h hh)
    | some k =>
      rw [hfd, hσ] at hf
      simp only [Except.ok.injEq, Prod.mk.injEq] at hf
      exact chain_ne_zero _ _ _ hc k (List.mem_of_find?_eq_some hfd) hf.1.symm

/-- Instance of `find_slot_first_fit`: three blocks of 8 bytes with the middle one released;
the search for 8 bytes passes the first header and returns the second. -/
theorem find_slot_first_fit_witness :
    ∃ σ1 σ2 σ3, xyzmalloc (initial zeroMem 4096 8192) 8 = .ok (4120, σ1) ∧
      xyzmalloc σ1 8 = .ok (4152, σ2) ∧ xyzmalloc σ2 8 = .ok (4184, σ3) ∧
      ((xyzfree σ3 4152).heap_start < PTR_RANGE ∧
        Chain (xyzfree σ3 4152).mem (xyzfree σ3 4152).heap_start [4096, 4128, 4160]) ∧
      find_slot (xyzfree σ3 4152) 8 = .ok (4128, { xyzfree σ3 4152 with
        mem := store32 (xyzfree σ3 4152).mem (4128 + OFF_AVAILABLE) 0 }) :=
  ⟨_, _, _, rfl, rfl, rfl, ⟨by decide, by decide⟩,
    ((find_slot_first_fit _ 8 [4096, 4128, 4160] (by decide) (by decide)).1
      [4096] 4128 [4160] rfl (by decide) (by decide)).2.1⟩

/-- Claim C18, evaluated: after two splits the chain has the three headers 4096, 4124, 4152;
the growth caused by `xyzmalloc 200` leaves a chain of two headers, 4096 and 4220. -/
theorem chain_length_decreases :
    ∃ σ1 σ2 σ3 σ4, xyzmalloc (initial zeroMem 4096 16384) 100 = .ok (4120, σ1) ∧
      xyzmalloc (xyzfree σ1 4120) 4 = .ok (4120, σ2) ∧
      xyzmalloc σ2 4 = .ok (4148, σ3) ∧
      xyzmalloc σ3 200 = .ok (4244, σ4) ∧
      Chain σ3.mem σ3.heap_start [4096, 4124, 4152] ∧
      Chain σ4.mem σ4.heap_start [4096, 4220] ∧
      [4096, 4220].length < [4096, 4124, 4152].length :=
  ⟨_, _, _, _, rfl, rfl, rfl, rfl, by decide, by decide, by decide⟩

/-- Claim C19 (split decision and byte conservation).  In a state of a run, when `find_slot`
returns the header `h` for the aligned request `n = align_size s` and `S` is the size of `h`:
if `S > n + METADATA_SIZE`, `xyzmalloc` leaves `h` with size `n` and a link to a new
available header at `h + METADATA_SIZE + n` that carries the tag, has size
`S - n - METADATA_SIZE ≥ ALIGNMENT_FACTOR`, inherits the old link of `h` and ends where the
original block ended; otherwise `h` keeps its size and link and memory differs from before
the call in the `available` field of `h` only. -/
theorem split_decision (σ σ1 : State) (ret : List Nat) (s h : Nat)
    (hr : Reach σ ret) (hs : s < UINT_RANGE)
    (hf : find_slot σ (align_size s) = .ok (h, σ1)) (hne : h ≠ 0) :
    (hdr_size σ.mem h > align_size s + METADATA_SIZE →
      ∃ σ2, xyzmalloc σ s = .ok (h + METADATA_SIZE, σ2) ∧
        hdr_size σ2.mem h = align_size s ∧
        hdr_next σ2.mem h = h + METADATA_SIZE + align_size s ∧
        hdr_available σ2.mem (h + METADATA_SIZE + align_size s) = 1 ∧
        hdr_magic σ2.mem (h + METADATA_SIZE + align_size s) = MAGIC_NUMBER ∧
        hdr_size σ2.mem (h + METADATA_SIZE + align_size s)
          = hdr_size σ.mem h - align_size s - METADATA_SIZE ∧
        hdr_size σ2.mem (h + METADATA_SIZE + align_size s) ≥ ALIGNMENT_FACTOR ∧
        hdr_next σ2.mem (h + METADATA_SIZE + align_size s) = hdr_next σ.mem h ∧
        (h + METADATA_SIZE + align_size s) + METADATA_SIZE
            + hdr_size σ2.mem (h + METADATA_SIZE + align_size s)
          = h + METADATA_SIZE + hdr_size σ.mem h) ∧
    (hdr_size σ.mem h ≤ align_size s + METADATA_SIZE →
      xyzmalloc σ s = .ok (h + METADATA_SIZE, σ1) ∧
        hdr_size σ1.mem h = hdr_size σ.mem h ∧ hdr_next σ1.mem h = hdr_next σ.mem h ∧
        ∀ x, (x < h + OFF_AVAILABLE ∨ h + OFF_AVAILABLE + 4 ≤ x) → σ1.mem x = σ.mem x) := by
  have hn := align_size_lt s hs
  have hn4 := align_size_mod s
  simp only [UINT_RANGE] at hn
  norm_num at hn
  rcases reach_inv σ ret hr with ⟨h0, -, -, -, -⟩ | ⟨H, hI, -⟩
  · -- before the first allocation the search returns `NULL`
    exfalso
    unfold find_slot at hf
    rw [h0] at hf
    have : find_slot_loop PTR_RANGE σ.mem 0 (align_size s) = some (0, σ.mem) := rfl
    rw [this] at hf
    simp only [Except.ok.injEq, Prod.mk.injEq] at hf
    exact hne hf.1.symm
  · have hpos := hI.start_pos
    have h0 : σ.heap_start ≠ 0 := by omega
    have hbs := hI.block _ hI.start_mem
    have hbrk := hI.brk_lt
    simp only [METADATA_SIZE, PTR_RANGE] at hbs hbrk
    norm_num at hbrk
    obtain ⟨l, hc, hl⟩ := chain_of_inv_start σ H hI
    have hptr : σ.heap_start < PTR_RANGE := by simp only [PTR_RANGE]; omega
    have hf2 := find_slot_chain σ (align_size s) l hc (chain_length_lt _ _ _ hptr hc)
    cases hfd : l.find? (fun h => decide (hdr_available σ.mem h ≠ 0 ∧ hdr_size σ.mem h ≥ align_size s)) with
    | none =>
      rw [hfd, hf] at hf2
      simp only [Except.ok.injEq, Prod.mk.injEq] at hf2
      exact absurd hf2.1 hne
    | some k =>
      rw [hfd, hf] at hf2
      simp only [Except.ok.injEq, Prod.mk.injEq] at hf2
      obtain ⟨e1, e2⟩ := hf2
      subst e1
      have hh : H h := hl h (List.mem_of_find?_eq_some hfd)
      have hbh := hI.block h hh
      simp only [METADATA_SIZE, ALIGNMENT_FACTOR] at hbh
      have hsz : hdr_size σ1.mem h = hdr_size σ.mem h := by
        rw [e2]
        simp only [hdr_size, OFF_SIZE, OFF_AVAILABLE]
        exact load32_store32_disj _ _ _ _ (by omega)
      have hnx : hdr_next σ1.mem h = hdr_next σ.mem h := by
        rw [e2]
        simp only [hdr_next, OFF_NEXT, OFF_AVAILABLE]
        exact load64_store32_disj _ _ _ _ (by omega)
      constructor
      · intro hbig
        have hbig1 : hdr_size σ1.mem h > align_size s + METADATA_SIZE := by rw [hsz]; exact hbig
        refine ⟨_, xyzmalloc_reuse_split σ σ1 s h h0 hf hne hbig1, ?_⟩
        simp only [METADATA_SIZE] at hbig1 hbig
        obtain ⟨-, -, -, -, f1, -, f3, -, g1, g2, g3, g4, -⟩ :=
          divide_slot_spec σ1 h (align_size s) hn (by omega) (by omega)
        simp only [METADATA_SIZE, MAGIC_NUMBER, ALIGNMENT_FACTOR]
        rw [f1, f3, g1, g2, g3, g4, hsz, hnx]
        refine ⟨rfl, rfl, rfl, rfl, rfl, ?_, rfl, ?_⟩ <;> omega
      · intro hsmall
        have hsmall1 : ¬ hdr_size σ1.mem h > align_size s + METADATA_SIZE := by
          rw [hsz]
          omega
        refine ⟨xyzmalloc_reuse_whole σ σ1 s h h0 hf hne hsmall1, hsz, hnx, ?_⟩
        intro x hx
        rw [e2]
        exact storeBytes_other _ _ _ _ _ hx

/-- Instance of `split_decision`: a released block of 100 bytes found for a request of 4. -/
theorem split_decision_witness :
    ∃ σ1 σ2, xyzmalloc (initial zeroMem 4096 8192) 100 = .ok (4120, σ1) ∧
      (Reach (xyzfree σ1 4120) [4120] ∧ 4 < UINT_RANGE ∧
        find_slot (xyzfree σ1 4120) (align_size 4) = .ok (4096, σ2) ∧ 4096 ≠ 0 ∧
        hdr_size (xyzfree σ1 4120).mem 4096 > align_size 4 + METADATA_SIZE) ∧
      ∃ σ3, xyzmalloc (xyzfree σ1 4120) 4 = .ok (4096 + METADATA_SIZE, σ3) ∧
        hdr_size σ3.mem 4096 = align_size 4 ∧
        hdr_next σ3.mem 4096 = 4096 + METADATA_SIZE + align_size 4 ∧
        hdr_available σ3.mem (4096 + METADATA_SIZE + align_size 4) = 1 ∧
        hdr_magic σ3.mem (4096 + METADATA_SIZE + align_size 4) = MAGIC_NUMBER ∧
        hdr_size σ3.mem (4096 + METADATA_SIZE + align_size 4)
          = hdr_size (xyzfree σ1 4120).mem 4096 - align_size 4 - METADATA_SIZE ∧
        hdr_size σ3.mem (4096 + METADATA_SIZE + align_size 4) ≥ ALIGNMENT_FACTOR ∧
        hdr_next σ3.mem (4096 + METADATA_SIZE + align_size 4)
          = hdr_next (xyzfree σ1 4120).mem 4096 ∧
        (4096 + METADATA_SIZE + align_size 4) + METADATA_SIZE
            + hdr_size σ3.mem (4096 + METADATA_SIZE + align_size 4)
          = 4096 + METADATA_SIZE + hdr_size (xyzfree σ1 4120).mem 4096 :=
  have r0 : Reach (initial zeroMem 4096 8192) [] :=
    Reach.start zeroMem 4096 8192 (by decide) (fun _ _ => rfl)
  have r1 := Reach.malloc _ _ 100 4120 _ r0 (by decide) rfl
  have r2 := Reach.free _ _ 4120 r1 (List.mem_cons_self _ _)
  ⟨_, _, rfl, ⟨r2, by decide, rfl, by decide, by decide⟩,
    (split_decision _ _ _ 4 4096 r2 (by decide) rfl (by decide)).1 (by decide)⟩

/-- Claim C20 (live allocations never alias).  In every state of a disciplined run, where
`xyzfree` is only called on live pointers: the usable region `[p, p + size)` of every live
pointer lies inside `[heap_start, break)` (as a range: it may be empty), the usable regions
of two different live pointers are disjoint, and a call of `xyzmalloc` never returns a
pointer that is live. -/
theorem live_allocations_disjoint (σ : State) (live : List Nat) (hr : Disciplined σ live) :
    (∀ p ∈ live, σ.heap_start ≤ p ∧ p + hdr_size σ.mem (get_metadata p) ≤ σ.brk) ∧
    (∀ p ∈ live, ∀ q ∈ live, p ≠ q →
      p + hdr_size σ.mem (get_metadata p) ≤ q ∨ q + hdr_size σ.mem (get_metadata q) ≤ p) ∧
    (∀ s p σ2, s < UINT_RANGE → xyzmalloc σ s = .ok (p, σ2) → p ∉ live) := by
  rcases disciplined_inv σ live hr with ⟨-, -, -, -, hlive⟩ | ⟨H, hI, hlive⟩
  · subst hlive
    exact ⟨fun p hp => by simp at hp, fun p hp => by simp at hp, fun _ _ _ _ _ hp => by simp at hp⟩
  · refine ⟨?_, ?_, ?_⟩
    · intro p hp
      obtain ⟨h, hh, e, -⟩ := hlive p hp
      subst e
      have hb := hI.block h hh
      simp only [get_metadata, Nat.add_sub_cancel]
      simp only [METADATA_SIZE] at hb ⊢
      omega
    · intro p hp q hq hpq
      obtain ⟨h, hh, e, -⟩ := hlive p hp
      obtain ⟨k, hk, e2, -⟩ := hlive q hq
      subst e e2
      have hd := hI.disjoint h k hh hk (fun e => hpq (by rw [e]))
      simp only [get_metadata, Nat.add_sub_cancel]
      simp only [METADATA_SIZE] at hd ⊢
      omega
    · intro s p σ2 hs hm hp
      obtain ⟨k, hk, e, ha⟩ := hlive p hp
      obtain ⟨H2, -, -, hnew, -, -⟩ := inv_xyzmalloc σ σ2 H s p hI hs hm
      have hp0 : p ≠ 0 := by simp only [METADATA_SIZE] at e; omega
      obtain ⟨h, -, e2, -, hav⟩ := hnew hp0
      have hkh : k = h := by simp only [METADATA_SIZE] at e e2; omega
      subst hkh
      exact hav hk ha

/-- Instance of `live_allocations_disjoint`: two live blocks of 8 bytes. -/
theorem live_allocations_disjoint_witness :
    ∃ σ1 σ2, xyzmalloc (initial zeroMem 4096 8192) 8 = .ok (4120, σ1) ∧
      xyzmalloc σ1 8 = .ok (4152, σ2) ∧ Disciplined σ2 [4152, 4120] ∧
      (∀ p ∈ [4152, 4120], σ2.heap_start ≤ p ∧ p + hdr_size σ2.mem (get_metadata p) ≤ σ2.brk) ∧
      (∀ p ∈ [4152, 4120], ∀ q ∈ [4152, 4120], p ≠ q →
        p + hdr_size σ2.mem (get_metadata p) ≤ q ∨ q + hdr_size σ2.mem (get_metadata q) ≤ p) ∧
      (∀ s p σ3, s < UINT_RANGE → xyzmalloc σ2 s = .ok (p, σ3) → p ∉ [4152, 4120]) :=
  have r0 : Disciplined (initial zeroMem 4096 8192) [] :=
    Disciplined.start zeroMem 4096 8192 (by decide) (fun _ _ => rfl)
  have r1 := Disciplined.malloc _ _ 8 4120 _ r0 (by decide) rfl
  have r2 := Disciplined.malloc _ _ 8 4152 _ r1 (by decide) rfl
  ⟨_, _, rfl, rfl, r2, live_allocations_disjoint _ _ r2⟩

end SimpleMalloc
